import Mathlib

/-!
Verification development for the hyper-file union tool
(`tableau_hyper_union.py`).

The development shallowly embeds the three phases of the program:

* the catalog scan that folds every source file's columns into the
  running unified schema (`processColumn`, `processTable`,
  `processSchema`, `processFile`, `scanFiles`),
* the output table builder (`addProvenance`, `buildTableDefinition`),
* the projection query synthesizer and row mover (`selectItemFor`,
  `provenanceItems`, `buildSelectExprs`, `renderSelectItem`,
  `buildQuery`, `evalQuery`, `moveRowsForPair`).

Python dictionaries are embedded as insertion-ordered association
lists (`dictGet?`, `dictSet`); machine state that the script mutates
(`output_dict` plus the stream of conflict warnings) is threaded
explicitly through `ScanState`.
-/

namespace THU

/-- Nullability flags, mirroring `tableauhyperapi.Nullability`. -/
inductive Nullability
  | NULLABLE
  | NOT_NULLABLE
deriving DecidableEq

/-- A catalog column: name, declared SQL type (by tag), nullability and
collation, mirroring `TableDefinition.Column`. -/
structure Column where
  name : String
  type : String
  nullability : Nullability
  collation : Option String
deriving DecidableEq

/-- A cell value produced by a query: `none` is SQL NULL, `some s` a
(rendered) non-null value. -/
abbrev Value := Option String

/-- One table of a source hyper file: its name, its column definitions
(in catalog order) and its rows (positional, one `Value` per column). -/
structure TableData where
  name : String
  columns : List Column
  rows : List (List Value)
deriving DecidableEq

/-- One schema (namespace) of a source hyper file. -/
structure SchemaData where
  name : String
  tables : List TableData
deriving DecidableEq

/-- A source hyper file: its file name and its catalog content. -/
structure HyperFile where
  name : String
  schemas : List SchemaData
deriving DecidableEq

/-- The single-quote character (codepoint 39). -/
def squote : Char := Char.ofNat 39

/-- The single-quote character as a one-character string. -/
def sq : String := String.mk [squote]

/-- Escape the inner double quotes of an identifier body, doubling
each one. -/
def escapeChars : List Char → List Char
  | [] => []
  | c :: cs => if c = '"' then '"' :: '"' :: escapeChars cs else c :: escapeChars cs

/-- Modelled from the spec: `escapeIdentifier` of the external engine
API (`tableauhyperapi.escape_name`, spec section 6), which the script
treats as a black box.  It renders an identifier as a double-quoted
SQL identifier with inner double quotes doubled. -/
def escape_name (s : String) : String := String.mk ('"' :: (escapeChars s.data ++ ['"']))

/-- Lookup in a Python-dict model: first (unique) binding of the key. -/
def dictGet? {α : Type} : List (String × α) → String → Option α
  | [], _ => none
  | p :: ps, k => if p.1 = k then some p.2 else dictGet? ps k

/-- Assignment in a Python-dict model: replace the binding of the key
when present, otherwise append a new binding at the end (insertion
order, as Python dicts preserve it). -/
def dictSet {α : Type} : List (String × α) → String → α → List (String × α)
  | [], k, v => [(k, v)]
  | p :: ps, k, v => if p.1 = k then (k, v) :: ps else p :: dictSet ps k v

/-- The per-table accumulator of `output_dict`: the unified column list
of one (schema, table) pair, in discovery order. -/
abbrev TableEntry := List Column

/-- The per-schema level of `output_dict`: table name to its entry. -/
abbrev SchemaEntry := List (String × TableEntry)

/-- The whole `output_dict`: schema name to its table map. -/
abbrev OutputDict := List (String × SchemaEntry)

/-- Read `output_dict[schema][table]`, defaulting to the empty column
list when either key is absent (the scan only reads entries it has
registered, so the default is never observed on the program's paths). -/
def tableEntry (dict : OutputDict) (s t : String) : TableEntry :=
  (dictGet? ((dictGet? dict s).getD []) t).getD []

/-- Write `output_dict[schema][table] = e`. -/
def setTableEntry (dict : OutputDict) (s t : String) (e : TableEntry) : OutputDict :=
  dictSet dict s (dictSet ((dictGet? dict s).getD []) t e)

/-- The column names of `output_dict[schema][table]`. -/
def entryNames (dict : OutputDict) (s t : String) : List String :=
  (tableEntry dict s t).map (fun c => c.name)

/-- A schema-conflict warning, carrying the fields the script logs at
the conflict branch: schema, table, column name, the offending file,
the existing (first-seen) column and the conflicting one. -/
structure ConflictReport where
  schema : String
  table : String
  column : String
  file : String
  existing : Column
  conflicting : Column
deriving DecidableEq

/-- The scan-phase state: the unified `output_dict` plus the conflict
warnings emitted so far. -/
structure ScanState where
  dict : OutputDict
  conflicts : List ConflictReport
deriving DecidableEq

/-- One column step of the scan loop (`tableau_hyper_union.py` lines
88-100): insert the column as-is when its name is new for the
(schema, table) entry; otherwise compare (type, nullability,
collation) with the first matching existing column and either warn
(keeping the existing definition) or do nothing. -/
def processColumn (file s t : String) (st : ScanState) (column : Column) : ScanState :=
  let entry := tableEntry st.dict s t
  match entry.find? (fun c => c.name == column.name) with
  | none => { st with dict := setTableEntry st.dict s t (entry ++ [column]) }
  | some matching =>
      if column.type ≠ matching.type ∨ column.nullability ≠ matching.nullability
          ∨ column.collation ≠ matching.collation then
        { st with conflicts :=
            st.conflicts ++ [⟨s, t, column.name, file, matching, column⟩] }
      else st

/-- One table step of the scan loop (lines 79-100): register the table
key when absent, then fold the table's columns. -/
def processTable (file s : String) (st : ScanState) (tbl : TableData) : ScanState :=
  tbl.columns.foldl (processColumn file s tbl.name)
    (if (dictGet? ((dictGet? st.dict s).getD []) tbl.name).isNone then
      { st with dict := setTableEntry st.dict s tbl.name [] }
    else st)

/-- One schema step of the scan loop (lines 72-100): register the
schema key when absent, then fold the schema's tables. -/
def processSchema (file : String) (st : ScanState) (sc : SchemaData) : ScanState :=
  sc.tables.foldl (processTable file sc.name)
    (if (dictGet? st.dict sc.name).isNone then
      { st with dict := dictSet st.dict sc.name [] }
    else st)

/-- Scan one source file (lines 66-100): fold all its schemas. -/
def processFile (st : ScanState) (f : HyperFile) : ScanState :=
  f.schemas.foldl (processSchema f.name) st

/-- The whole scan phase over the worklist, starting from the empty
`output_dict` of line 54. -/
def scanFiles (files : List HyperFile) : ScanState :=
  files.foldl processFile ⟨[], []⟩

/-- The scan phase when opening some files fails (the per-file
`try`/`except` of lines 67-103): a file whose open raises contributes
nothing, and the fold continues with the remaining files. -/
def scanFilesSafe (bad : List String) (files : List HyperFile) : ScanState :=
  files.foldl (fun st f => if bad.contains f.name then st else processFile st f) ⟨[], []⟩

/-- All column occurrences a given file contributes to the
(schema, table) pair. -/
def fileColumnsFor (f : HyperFile) (s t : String) : List Column :=
  (f.schemas.filter (fun sc => sc.name == s)).flatMap
    (fun sc => (sc.tables.filter (fun tb => tb.name == t)).flatMap (fun tb => tb.columns))

/-- The provenance-column append of line 121-122: when the configured
name is non-empty and no unified column escape-matches it, append a
NOT_NULLABLE text column of that name. -/
def addProvenance (cols : List Column) (source_file_column_name : String) : List Column :=
  if 0 < source_file_column_name.length ∧
      (cols.filter (fun column =>
        escape_name column.name = escape_name source_file_column_name)).length < 1 then
    cols ++ [⟨source_file_column_name, "text", Nullability.NOT_NULLABLE, none⟩]
  else cols

/-- The target `TableDefinition` column list of lines 124-135: the
unified columns with every nullability forced to NULLABLE (name, type
and collation are passed through). -/
def buildTableDefinition (cols : List Column) : List Column :=
  cols.map (fun column => ⟨column.name, column.type, Nullability.NULLABLE, column.collation⟩)

/-- One projected expression of the synthesized query. -/
inductive SelectExpr
  | colRef (name : String)
  | nullLit (name : String)
  | fileLit (file prov : String)
  | passThrough (name prov : String)
deriving DecidableEq

/-- The per-column branch of the query loop (lines 153-159): an
escaped column reference when the source table has the column, a NULL
placeholder when it does not, and nothing when the column
escape-matches the provenance name. -/
def selectItemFor (srcCols : List Column) (source_file_column_name : String)
    (column : Column) : Option SelectExpr :=
  if column.name ∈ srcCols.map (fun c => c.name) ∧
      escape_name column.name ≠ escape_name source_file_column_name then
    some (.colRef column.name)
  else if escape_name column.name ≠ escape_name source_file_column_name then
    some (.nullLit column.name)
  else none

/-- The provenance tail of the query (lines 160-164): a file-name
literal for an ordinary file, a pass-through reference when the file
being read is the configured output file itself. -/
def provenanceItems (hyper_file args_output_file source_file_column_name : String) :
    List SelectExpr :=
  if 0 < source_file_column_name.length then
    if hyper_file ≠ args_output_file then
      [.fileLit hyper_file source_file_column_name]
    else
      [.passThrough source_file_column_name source_file_column_name]
  else []

/-- The full projection list of the synthesized query for one
(target definition, source file) pair. -/
def buildSelectExprs (tdCols srcCols : List Column)
    (hyper_file args_output_file source_file_column_name : String) : List SelectExpr :=
  tdCols.filterMap (selectItemFor srcCols source_file_column_name)
    ++ provenanceItems hyper_file args_output_file source_file_column_name

/-- Render one projected expression exactly as the string-building
code of lines 156, 159, 162 and 164 does (each fragment keeps its
trailing comma). -/
def renderSelectItem : SelectExpr → String
  | .colRef n => " " ++ escape_name n ++ ","
  | .nullLit n => " NULL as " ++ escape_name n ++ ","
  | .fileLit f p => " " ++ sq ++ f ++ sq ++ " as " ++ p ++ ","
  | .passThrough n p => " " ++ escape_name n ++ " as " ++ p ++ ","

/-- The complete query text of lines 152-167: "SELECT ", the rendered
fragments, the last comma pinched off, then the FROM clause. -/
def buildQuery (tdCols srcCols : List Column)
    (schemaName tableName hyper_file args_output_file source_file_column_name : String) :
    String :=
  (("SELECT " ++
      ((buildSelectExprs tdCols srcCols hyper_file args_output_file
          source_file_column_name).foldl (fun q e => q ++ renderSelectItem e) "")).dropRight 1)
    ++ " FROM " ++ escape_name schemaName ++ "." ++ escape_name tableName

/-- The output-column name of a projected expression (the alias, or
the referenced name when no alias is given). -/
def outputColName : SelectExpr → String
  | .colRef n => n
  | .nullLit n => n
  | .fileLit _ p => p
  | .passThrough _ p => p

/-- The value a source row holds for a named column, by the column's
position in the source definition. -/
def lookupColValue (srcCols : List Column) (row : List Value) (n : String) : Value :=
  match srcCols.findIdx? (fun c => c.name == n) with
  | some i => row.getD i none
  | none => none

/-- Modelled from the spec: evaluation of one projected expression by
the external engine (`executeProjectionQuery`, spec section 6): a
column reference reads the source row, NULL is null, a string literal
is itself. -/
def evalSelectExpr (srcCols : List Column) (row : List Value) : SelectExpr → Value
  | .colRef n => lookupColValue srcCols row n
  | .nullLit _ => none
  | .fileLit f _ => some f
  | .passThrough n _ => lookupColValue srcCols row n

/-- Modelled from the spec: the row set the external engine returns
for a projection query, one output row per source row. -/
def evalQuery (exprs : List SelectExpr) (srcCols : List Column)
    (rows : List (List Value)) : List (List Value) :=
  rows.map (fun row => exprs.map (evalSelectExpr srcCols row))

/-- Locate a (schema, table) pair inside a source file, as the
membership test of line 149 does. -/
def findTable (f : HyperFile) (s t : String) : Option TableData :=
  (f.schemas.find? (fun sc => sc.name == s)).bind
    (fun sc => sc.tables.find? (fun tb => tb.name == t))

/-- The row-move step for one (unified table, source file) pair
(lines 147-189): skip (`none`) when the file lacks the schema or
table, otherwise synthesize the projection and evaluate it. -/
def moveRowsForPair (f : HyperFile) (s t : String) (tdCols : List Column)
    (args_output_file source_file_column_name : String) : Option (List (List Value)) :=
  match findTable f s t with
  | some tbl =>
      some (evalQuery
        (buildSelectExprs tdCols tbl.columns f.name args_output_file source_file_column_name)
        tbl.columns tbl.rows)
  | none => none

/-- Every (schema, table, file) combination the row-move phase
attempts: the nested loops of lines 112, 116 and 144 iterate every
schema and table of `output_dict` against every worklist file. -/
def rowMoveAttempts (dict : OutputDict) (worklist : List String) :
    List (String × String × String) :=
  dict.flatMap (fun p => p.2.flatMap (fun q => worklist.map (fun f => (p.1, q.1, f))))

/-- The worklist discovery of lines 45-51: all hyper files in the
directory minus the working output file; in preserve mode the working
output is a derived temp name, so the configured output file stays on
the worklist. -/
def computeWorklist (filesInDir : List String) (args_output_file : String)
    (preserve_output_file : Bool) : List String × String :=
  if ¬preserve_output_file then
    (filesInDir.filter (fun h => h ≠ args_output_file), args_output_file)
  else
    let output_file := ((args_output_file.splitOn ".").getLastD "") ++ "_temp.hyper"
    (filesInDir.filter (fun h => h ≠ output_file), output_file)

/-- Double the single quotes of a string body, as SQL requires inside
a single-quoted literal. -/
def escapeLitChars : List Char → List Char
  | [] => []
  | c :: cs =>
      if c = squote then squote :: squote :: escapeLitChars cs else c :: escapeLitChars cs

/-- Read a single-quoted SQL string literal body: the input starts
right after the opening quote; a doubled quote is an escaped quote,
a single one closes the literal.  Returns the decoded content and the
remaining input, or `none` when the literal never closes. -/
def parseLitContent : List Char → Option (List Char × List Char)
  | [] => none
  | c :: rest =>
      if c = squote then
        match rest with
        | [] => some ([], [])
        | c2 :: rest2 =>
            if c2 = squote then
              (parseLitContent rest2).map (fun p => (squote :: p.1, p.2))
            else some ([], rest)
      else (parseLitContent rest).map (fun p => (c :: p.1, p.2))

/-! Dictionary lemmas. -/

theorem dictGet?_dictSet_self {α : Type} (xs : List (String × α)) (k : String) (v : α) :
    dictGet? (dictSet xs k v) k = some v := by
  induction xs with
  | nil => simp [dictGet?, dictSet]
  | cons p ps ih =>
      by_cases h : p.1 = k
      · simp [dictGet?, dictSet, h]
      · simp [dictGet?, dictSet, h, ih]

theorem dictGet?_dictSet_ne {α : Type} (xs : List (String × α)) (k k' : String) (v : α)
    (h : k' ≠ k) : dictGet? (dictSet xs k v) k' = dictGet? xs k' := by
  induction xs with
  | nil => simp [dictGet?, dictSet, Ne.symm h]
  | cons p ps ih =>
      by_cases hp : p.1 = k
      · simp [dictGet?, dictSet, hp, Ne.symm h]
      · simp [dictGet?, dictSet, hp, ih]

theorem dictGet?_dictSet_isSome {α : Type} (xs : List (String × α)) (k k' : String) (v : α)
    (h : (dictGet? xs k').isSome) : (dictGet? (dictSet xs k v) k').isSome := by
  by_cases hk : k' = k
  · subst hk; rw [dictGet?_dictSet_self]; rfl
  · rwa [dictGet?_dictSet_ne _ _ _ _ hk]

/-! Lemmas about reading and writing `output_dict[schema][table]`. -/

theorem tableEntry_setTableEntry_self (d : OutputDict) (s t : String) (e : TableEntry) :
    tableEntry (setTableEntry d s t e) s t = e := by
  unfold tableEntry setTableEntry
  rw [dictGet?_dictSet_self]
  simp [dictGet?_dictSet_self]

theorem tableEntry_setTableEntry_ne (d : OutputDict) (s t s' t' : String) (e : TableEntry)
    (h : ¬(s' = s ∧ t' = t)) :
    tableEntry (setTableEntry d s t e) s' t' = tableEntry d s' t' := by
  unfold tableEntry setTableEntry
  by_cases hs : s' = s
  · subst hs
    have ht : t' ≠ t := fun ht => h ⟨rfl, ht⟩
    rw [dictGet?_dictSet_self]
    simp [dictGet?_dictSet_ne _ _ _ _ ht]
  · rw [dictGet?_dictSet_ne _ _ _ _ hs]

theorem tableEntry_regSchema (d : OutputDict) (s s' t' : String)
    (h : dictGet? d s = none) :
    tableEntry (dictSet d s []) s' t' = tableEntry d s' t' := by
  unfold tableEntry
  by_cases hs : s' = s
  · subst hs
    rw [dictGet?_dictSet_self, h]
    simp [dictGet?]
  · rw [dictGet?_dictSet_ne _ _ _ _ hs]

theorem tableEntry_regTable (d : OutputDict) (s t s' t' : String)
    (h : dictGet? ((dictGet? d s).getD []) t = none) :
    tableEntry (setTableEntry d s t []) s' t' = tableEntry d s' t' := by
  by_cases hst : s' = s ∧ t' = t
  · obtain ⟨hs, ht⟩ := hst
    subst hs; subst ht
    rw [tableEntry_setTableEntry_self]
    unfold tableEntry
    rw [h]
    rfl
  · rw [tableEntry_setTableEntry_ne _ _ _ _ _ _ hst]

/-! Branch lemmas for one column step of the scan. -/

theorem processColumn_of_new (file s t : String) (st : ScanState) (col : Column)
    (h : (tableEntry st.dict s t).find? (fun c => c.name == col.name) = none) :
    processColumn file s t st col =
      { st with dict := setTableEntry st.dict s t (tableEntry st.dict s t ++ [col]) } := by
  simp only [processColumn, h]

theorem processColumn_of_conflict (file s t : String) (st : ScanState) (col matching : Column)
    (h : (tableEntry st.dict s t).find? (fun c => c.name == col.name) = some matching)
    (hne : col.type ≠ matching.type ∨ col.nullability ≠ matching.nullability
      ∨ col.collation ≠ matching.collation) :
    processColumn file s t st col =
      { st with conflicts := st.conflicts ++ [⟨s, t, col.name, file, matching, col⟩] } := by
  simp only [processColumn, h]
  rw [if_pos hne]

theorem processColumn_of_match (file s t : String) (st : ScanState) (col matching : Column)
    (h : (tableEntry st.dict s t).find? (fun c => c.name == col.name) = some matching)
    (h1 : col.type = matching.type) (h2 : col.nullability = matching.nullability)
    (h3 : col.collation = matching.collation) :
    processColumn file s t st col = st := by
  simp only [processColumn, h]
  rw [if_neg (by simp [h1, h2, h3])]

theorem processColumn_dict_of_found (file s t : String) (st : ScanState) (col matching : Column)
    (h : (tableEntry st.dict s t).find? (fun c => c.name == col.name) = some matching) :
    (processColumn file s t st col).dict = st.dict := by
  by_cases hne : col.type ≠ matching.type ∨ col.nullability ≠ matching.nullability
      ∨ col.collation ≠ matching.collation
  · rw [processColumn_of_conflict file s t st col matching h hne]
  · push_neg at hne
    rw [processColumn_of_match file s t st col matching h hne.1 hne.2.1 hne.2.2]

theorem processColumn_tableEntry_ne (file s t s' t' : String) (st : ScanState) (col : Column)
    (h : ¬(s' = s ∧ t' = t)) :
    tableEntry (processColumn file s t st col).dict s' t' = tableEntry st.dict s' t' := by
  cases hfind : (tableEntry st.dict s t).find? (fun c => c.name == col.name) with
  | none =>
      rw [processColumn_of_new file s t st col hfind]
      exact tableEntry_setTableEntry_ne _ _ _ _ _ _ h
  | some m => rw [processColumn_dict_of_found file s t st col m hfind]

theorem processColumn_entry_extends (file s t s' t' : String) (st : ScanState) (col : Column) :
    ∃ tail, tableEntry (processColumn file s t st col).dict s' t' =
      tableEntry st.dict s' t' ++ tail := by
  by_cases hst : s' = s ∧ t' = t
  · obtain ⟨hs, ht⟩ := hst
    subst hs; subst ht
    cases hfind : (tableEntry st.dict s' t').find? (fun c => c.name == col.name) with
    | none =>
        refine ⟨[col], ?_⟩
        rw [processColumn_of_new file s' t' st col hfind]
        exact tableEntry_setTableEntry_self _ _ _ _
    | some m =>
        exact ⟨[], by rw [processColumn_dict_of_found file s' t' st col m hfind]; simp⟩
  · exact ⟨[], by rw [processColumn_tableEntry_ne file s t s' t' st col hst]; simp⟩

theorem processColumn_conflicts_extends (file s t : String) (st : ScanState) (col : Column) :
    ∃ tail, (processColumn file s t st col).conflicts = st.conflicts ++ tail := by
  cases hfind : (tableEntry st.dict s t).find? (fun c => c.name == col.name) with
  | none => exact ⟨[], by rw [processColumn_of_new file s t st col hfind]; simp⟩
  | some m =>
      by_cases hne : col.type ≠ m.type ∨ col.nullability ≠ m.nullability
          ∨ col.collation ≠ m.collation
      · exact ⟨[⟨s, t, col.name, file, m, col⟩],
          by rw [processColumn_of_conflict file s t st col m hfind hne]⟩
      · push_neg at hne
        exact ⟨[], by rw [processColumn_of_match file s t st col m hfind hne.1 hne.2.1 hne.2.2]; simp⟩

theorem processColumn_names (file s t s' t' : String) (st : ScanState) (col : Column)
    (n : String) :
    n ∈ entryNames (processColumn file s t st col).dict s' t' ↔
      n ∈ entryNames st.dict s' t' ∨ (s' = s ∧ t' = t ∧ n = col.name) := by
  by_cases hst : s' = s ∧ t' = t
  · obtain ⟨hs, ht⟩ := hst
    subst hs; subst ht
    cases hfind : (tableEntry st.dict s' t').find? (fun c => c.name == col.name) with
    | none =>
        rw [processColumn_of_new file s' t' st col hfind]
        unfold entryNames
        rw [tableEntry_setTableEntry_self]
        simp [or_comm, eq_comm]
    | some m =>
        have hmem : col.name ∈ entryNames st.dict s' t' := by
          have h1 := List.mem_of_find?_eq_some hfind
          have h2 := List.find?_some hfind
          simp only [beq_iff_eq] at h2
          unfold entryNames
          exact h2 ▸ List.mem_map_of_mem (fun c => c.name) h1
        unfold entryNames
        rw [processColumn_dict_of_found file s' t' st col m hfind]
        constructor
        · exact fun h => Or.inl h
        · rintro (h | ⟨-, -, rfl⟩)
          · exact h
          · exact hmem
  · unfold entryNames
    rw [processColumn_tableEntry_ne file s t s' t' st col hst]
    simp only [iff_self_or]
    rintro ⟨hs, ht, -⟩
    exact absurd ⟨hs, ht⟩ hst

/-! Fold-level lemmas: how a whole table, schema, file changes the
unified schema. -/

theorem find?_append_some {α : Type} (p : α → Bool) (l tail : List α) (a : α)
    (h : l.find? p = some a) : (l ++ tail).find? p = some a := by
  rw [List.find?_append, h]
  rfl

theorem foldColumns_entry_extends (file s t : String) (cols : List Column) :
    ∀ (st : ScanState) (s' t' : String), ∃ tail,
      tableEntry ((cols.foldl (processColumn file s t) st).dict) s' t' =
        tableEntry st.dict s' t' ++ tail := by
  induction cols with
  | nil => exact fun st s' t' => ⟨[], by simp⟩
  | cons c cs ih =>
      intro st s' t'
      obtain ⟨t1, h1⟩ := processColumn_entry_extends file s t s' t' st c
      obtain ⟨t2, h2⟩ := ih (processColumn file s t st c) s' t'
      exact ⟨t1 ++ t2, by rw [List.foldl_cons, h2, h1, List.append_assoc]⟩

theorem foldColumns_conflicts_extends (file s t : String) (cols : List Column) :
    ∀ (st : ScanState), ∃ tail,
      (cols.foldl (processColumn file s t) st).conflicts = st.conflicts ++ tail := by
  induction cols with
  | nil => exact fun st => ⟨[], by simp⟩
  | cons c cs ih =>
      intro st
      obtain ⟨t1, h1⟩ := processColumn_conflicts_extends file s t st c
      obtain ⟨t2, h2⟩ := ih (processColumn file s t st c)
      exact ⟨t1 ++ t2, by rw [List.foldl_cons, h2, h1, List.append_assoc]⟩

theorem foldColumns_names (file s t : String) (cols : List Column) :
    ∀ (st : ScanState) (s' t' n : String),
      n ∈ entryNames ((cols.foldl (processColumn file s t) st).dict) s' t' ↔
        n ∈ entryNames st.dict s' t' ∨ (s' = s ∧ t' = t ∧ ∃ c ∈ cols, c.name = n) := by
  induction cols with
  | nil => simp
  | cons c cs ih =>
      intro st s' t' n
      rw [List.foldl_cons, ih, processColumn_names]
      constructor
      · rintro ((h | ⟨hs, ht, rfl⟩) | ⟨hs, ht, x, hx, hxn⟩)
        · exact Or.inl h
        · exact Or.inr ⟨hs, ht, c, List.mem_cons_self c cs, rfl⟩
        · exact Or.inr ⟨hs, ht, x, List.mem_cons_of_mem c hx, hxn⟩
      · rintro (h | ⟨hs, ht, x, hx, hxn⟩)
        · exact Or.inl (Or.inl h)
        · rcases List.mem_cons.mp hx with rfl | hx'
          · exact Or.inl (Or.inr ⟨hs, ht, hxn.symm⟩)
          · exact Or.inr ⟨hs, ht, x, hx', hxn⟩

theorem processTable_entry_extends (file s s' t' : String) (st : ScanState) (tbl : TableData) :
    ∃ tail, tableEntry (processTable file s st tbl).dict s' t' =
      tableEntry st.dict s' t' ++ tail := by
  unfold processTable
  by_cases hreg : (dictGet? ((dictGet? st.dict s).getD []) tbl.name).isNone
  · rw [if_pos hreg]
    obtain ⟨tail, h⟩ := foldColumns_entry_extends file s tbl.name tbl.columns
      { st with dict := setTableEntry st.dict s tbl.name [] } s' t'
    refine ⟨tail, ?_⟩
    rw [h, tableEntry_regTable st.dict s tbl.name s' t' (Option.isNone_iff_eq_none.mp hreg)]
  · rw [if_neg hreg]
    exact foldColumns_entry_extends file s tbl.name tbl.columns st s' t'

theorem processTable_conflicts_extends (file s : String) (st : ScanState) (tbl : TableData) :
    ∃ tail, (processTable file s st tbl).conflicts = st.conflicts ++ tail := by
  unfold processTable
  by_cases hreg : (dictGet? ((dictGet? st.dict s).getD []) tbl.name).isNone
  · rw [if_pos hreg]
    exact foldColumns_conflicts_extends file s tbl.name tbl.columns _
  · rw [if_neg hreg]
    exact foldColumns_conflicts_extends file s tbl.name tbl.columns st

theorem processTable_names (file s : String) (st : ScanState) (tbl : TableData)
    (s' t' n : String) :
    n ∈ entryNames (processTable file s st tbl).dict s' t' ↔
      n ∈ entryNames st.dict s' t' ∨
        (s' = s ∧ t' = tbl.name ∧ ∃ c ∈ tbl.columns, c.name = n) := by
  unfold processTable
  by_cases hreg : (dictGet? ((dictGet? st.dict s).getD []) tbl.name).isNone
  · rw [if_pos hreg, foldColumns_names]
    unfold entryNames
    rw [tableEntry_regTable st.dict s tbl.name s' t' (Option.isNone_iff_eq_none.mp hreg)]
  · rw [if_neg hreg, foldColumns_names]

theorem foldTables_entry_extends (file s : String) (tbls : List TableData) :
    ∀ (st : ScanState) (s' t' : String), ∃ tail,
      tableEntry ((tbls.foldl (processTable file s) st).dict) s' t' =
        tableEntry st.dict s' t' ++ tail := by
  induction tbls with
  | nil => exact fun st s' t' => ⟨[], by simp⟩
  | cons tb tbs ih =>
      intro st s' t'
      obtain ⟨t1, h1⟩ := processTable_entry_extends file s s' t' st tb
      obtain ⟨t2, h2⟩ := ih (processTable file s st tb) s' t'
      exact ⟨t1 ++ t2, by rw [List.foldl_cons, h2, h1, List.append_assoc]⟩

theorem foldTables_conflicts_extends (file s : String) (tbls : List TableData) :
    ∀ (st : ScanState), ∃ tail,
      (tbls.foldl (processTable file s) st).conflicts = st.conflicts ++ tail := by
  induction tbls with
  | nil => exact fun st => ⟨[], by simp⟩
  | cons tb tbs ih =>
      intro st
      obtain ⟨t1, h1⟩ := processTable_conflicts_extends file s st tb
      obtain ⟨t2, h2⟩ := ih (processTable file s st tb)
      exact ⟨t1 ++ t2, by rw [List.foldl_cons, h2, h1, List.append_assoc]⟩

theorem foldTables_names (file s : String) (tbls : List TableData) :
    ∀ (st : ScanState) (s' t' n : String),
      n ∈ entryNames ((tbls.foldl (processTable file s) st).dict) s' t' ↔
        n ∈ entryNames st.dict s' t' ∨
          (s' = s ∧ ∃ tb ∈ tbls, t' = tb.name ∧ ∃ c ∈ tb.columns, c.name = n) := by
  induction tbls with
  | nil => simp
  | cons tb tbs ih =>
      intro st s' t' n
      rw [List.foldl_cons, ih, processTable_names]
      constructor
      · rintro ((h | ⟨hs, ht, hc⟩) | ⟨hs, x, hx, hxt, hxc⟩)
        · exact Or.inl h
        · exact Or.inr ⟨hs, tb, List.mem_cons_self tb tbs, ht, hc⟩
        · exact Or.inr ⟨hs, x, List.mem_cons_of_mem tb hx, hxt, hxc⟩
      · rintro (h | ⟨hs, x, hx, hxt, hxc⟩)
        · exact Or.inl (Or.inl h)
        · rcases List.mem_cons.mp hx with rfl | hx'
          · exact Or.inl (Or.inr ⟨hs, hxt, hxc⟩)
          · exact Or.inr ⟨hs, x, hx', hxt, hxc⟩

theorem processSchema_entry_extends (file s' t' : String) (st : ScanState) (sc : SchemaData) :
    ∃ tail, tableEntry (processSchema file st sc).dict s' t' =
      tableEntry st.dict s' t' ++ tail := by
  unfold processSchema
  by_cases hreg : (dictGet? st.dict sc.name).isNone
  · rw [if_pos hreg]
    obtain ⟨tail, h⟩ := foldTables_entry_extends file sc.name sc.tables
      { st with dict := dictSet st.dict sc.name [] } s' t'
    refine ⟨tail, ?_⟩
    rw [h, tableEntry_regSchema st.dict sc.name s' t' (Option.isNone_iff_eq_none.mp hreg)]
  · rw [if_neg hreg]
    exact foldTables_entry_extends file sc.name sc.tables st s' t'

theorem processSchema_conflicts_extends (file : String) (st : ScanState) (sc : SchemaData) :
    ∃ tail, (processSchema file st sc).conflicts = st.conflicts ++ tail := by
  unfold processSchema
  by_cases hreg : (dictGet? st.dict sc.name).isNone
  · rw [if_pos hreg]
    exact foldTables_conflicts_extends file sc.name sc.tables _
  · rw [if_neg hreg]
    exact foldTables_conflicts_extends file sc.name sc.tables st

theorem processSchema_names (file : String) (st : ScanState) (sc : SchemaData)
    (s' t' n : String) :
    n ∈ entryNames (processSchema file st sc).dict s' t' ↔
      n ∈ entryNames st.dict s' t' ∨
        (s' = sc.name ∧ ∃ tb ∈ sc.tables, t' = tb.name ∧ ∃ c ∈ tb.columns, c.name = n) := by
  unfold processSchema
  by_cases hreg : (dictGet? st.dict sc.name).isNone
  · rw [if_pos hreg, foldTables_names]
    unfold entryNames
    rw [tableEntry_regSchema st.dict sc.name s' t' (Option.isNone_iff_eq_none.mp hreg)]
  · rw [if_neg hreg, foldTables_names]

theorem processFile_entry_extends (s' t' : String) (st : ScanState) (f : HyperFile) :
    ∃ tail, tableEntry (processFile st f).dict s' t' =
      tableEntry st.dict s' t' ++ tail := by
  unfold processFile
  induction f.schemas generalizing st with
  | nil => exact ⟨[], by simp⟩
  | cons sc scs ih =>
      obtain ⟨t1, h1⟩ := processSchema_entry_extends f.name s' t' st sc
      obtain ⟨t2, h2⟩ := ih (processSchema f.name st sc)
      exact ⟨t1 ++ t2, by rw [List.foldl_cons, h2, h1, List.append_assoc]⟩

theorem processFile_conflicts_extends (st : ScanState) (f : HyperFile) :
    ∃ tail, (processFile st f).conflicts = st.conflicts ++ tail := by
  unfold processFile
  induction f.schemas generalizing st with
  | nil => exact ⟨[], by simp⟩
  | cons sc scs ih =>
      obtain ⟨t1, h1⟩ := processSchema_conflicts_extends f.name st sc
      obtain ⟨t2, h2⟩ := ih (processSchema f.name st sc)
      exact ⟨t1 ++ t2, by rw [List.foldl_cons, h2, h1, List.append_assoc]⟩

theorem processFile_names (st : ScanState) (f : HyperFile) (s' t' n : String) :
    n ∈ entryNames (processFile st f).dict s' t' ↔
      n ∈ entryNames st.dict s' t' ∨
        ∃ sc ∈ f.schemas, s' = sc.name ∧
          ∃ tb ∈ sc.tables, t' = tb.name ∧ ∃ c ∈ tb.columns, c.name = n := by
  unfold processFile
  induction f.schemas generalizing st with
  | nil => simp
  | cons sc scs ih =>
      rw [List.foldl_cons, ih, processSchema_names]
      constructor
      · rintro ((h | ⟨hs, hrest⟩) | ⟨x, hx, hrest⟩)
        · exact Or.inl h
        · exact Or.inr ⟨sc, List.mem_cons_self sc scs, hs, hrest⟩
        · exact Or.inr ⟨x, List.mem_cons_of_mem sc hx, hrest⟩
      · rintro (h | ⟨x, hx, hrest⟩)
        · exact Or.inl (Or.inl h)
        · rcases List.mem_cons.mp hx with rfl | hx'
          · exact Or.inl (Or.inr hrest)
          · exact Or.inr ⟨x, hx', hrest⟩

theorem mem_fileColumnsFor_names (f : HyperFile) (s t n : String) :
    (∃ c ∈ fileColumnsFor f s t, c.name = n) ↔
      ∃ sc ∈ f.schemas, s = sc.name ∧
        ∃ tb ∈ sc.tables, t = tb.name ∧ ∃ c ∈ tb.columns, c.name = n := by
  unfold fileColumnsFor
  simp only [List.mem_flatMap, List.mem_filter, beq_iff_eq]
  constructor
  · rintro ⟨c, ⟨sc, ⟨hsc, hscn⟩, tb, ⟨htb, htbn⟩, hc⟩, hn⟩
    exact ⟨sc, hsc, hscn.symm, tb, htb, htbn.symm, c, hc, hn⟩
  · rintro ⟨sc, hsc, hscn, tb, htb, htbn, c, hc, hn⟩
    exact ⟨c, ⟨sc, ⟨hsc, hscn.symm⟩, tb, ⟨htb, htbn.symm⟩, hc⟩, hn⟩

theorem scanFiles_names (files : List HyperFile) :
    ∀ (st : ScanState) (s t n : String),
      n ∈ entryNames ((files.foldl processFile st).dict) s t ↔
        n ∈ entryNames st.dict s t ∨
          ∃ f ∈ files, ∃ c ∈ fileColumnsFor f s t, c.name = n := by
  induction files with
  | nil => simp
  | cons f fs ih =>
      intro st s t n
      rw [List.foldl_cons, ih, processFile_names]
      constructor
      · rintro ((h | h) | ⟨x, hx, hc⟩)
        · exact Or.inl h
        · exact Or.inr ⟨f, List.mem_cons_self f fs, (mem_fileColumnsFor_names f s t n).mpr h⟩
        · exact Or.inr ⟨x, List.mem_cons_of_mem f hx, hc⟩
      · rintro (h | ⟨x, hx, hc⟩)
        · exact Or.inl (Or.inl h)
        · rcases List.mem_cons.mp hx with rfl | hx'
          · exact Or.inl (Or.inr ((mem_fileColumnsFor_names x s t n).mp hc))
          · exact Or.inr ⟨x, hx', hc⟩

/-! Key-presence machinery: once a schema key, table key or column
name is in the unified schema, no scan step removes it; and a scan
step whose keys and column names are all already present leaves the
unified schema untouched. -/

/-- The table key of this table exists and every column name of the
table is already in the unified entry. -/
def tablePresence (dict : OutputDict) (s : String) (tbl : TableData) : Prop :=
  (dictGet? ((dictGet? dict s).getD []) tbl.name).isSome = true ∧
    ∀ col ∈ tbl.columns, col.name ∈ entryNames dict s tbl.name

/-- The schema key exists and all its tables are present. -/
def schemaPresence (dict : OutputDict) (sc : SchemaData) : Prop :=
  (dictGet? dict sc.name).isSome = true ∧ ∀ tbl ∈ sc.tables, tablePresence dict sc.name tbl

/-- Every schema of the file is present. -/
def filePresence (dict : OutputDict) (f : HyperFile) : Prop :=
  ∀ sc ∈ f.schemas, schemaPresence dict sc

theorem setTableEntry_schemaKey_mono (d : OutputDict) (s t : String) (e : TableEntry)
    (k : String) (h : (dictGet? d k).isSome = true) :
    (dictGet? (setTableEntry d s t e) k).isSome = true := by
  unfold setTableEntry
  exact dictGet?_dictSet_isSome _ _ _ _ h

theorem setTableEntry_tableKey_mono (d : OutputDict) (s t : String) (e : TableEntry)
    (s' t' : String) (h : (dictGet? ((dictGet? d s').getD []) t').isSome = true) :
    (dictGet? ((dictGet? (setTableEntry d s t e) s').getD []) t').isSome = true := by
  unfold setTableEntry
  by_cases hs : s' = s
  · subst hs
    rw [dictGet?_dictSet_self]
    exact dictGet?_dictSet_isSome _ _ _ _ h
  · rw [dictGet?_dictSet_ne _ _ _ _ hs]
    exact h

theorem processColumn_schemaKey_mono (file s t : String) (st : ScanState) (col : Column)
    (k : String) (h : (dictGet? st.dict k).isSome = true) :
    (dictGet? (processColumn file s t st col).dict k).isSome = true := by
  cases hfind : (tableEntry st.dict s t).find? (fun c => c.name == col.name) with
  | none =>
      rw [processColumn_of_new file s t st col hfind]
      exact setTableEntry_schemaKey_mono _ _ _ _ _ h
  | some m => rw [processColumn_dict_of_found file s t st col m hfind]; exact h

theorem processColumn_tableKey_mono (file s t : String) (st : ScanState) (col : Column)
    (s' t' : String) (h : (dictGet? ((dictGet? st.dict s').getD []) t').isSome = true) :
    (dictGet? ((dictGet? (processColumn file s t st col).dict s').getD []) t').isSome = true := by
  cases hfind : (tableEntry st.dict s t).find? (fun c => c.name == col.name) with
  | none =>
      rw [processColumn_of_new file s t st col hfind]
      exact setTableEntry_tableKey_mono _ _ _ _ _ _ h
  | some m => rw [processColumn_dict_of_found file s t st col m hfind]; exact h

theorem foldColumns_schemaKey_mono (file s t : String) (cols : List Column) :
    ∀ (st : ScanState) (k : String), (dictGet? st.dict k).isSome = true →
      (dictGet? ((cols.foldl (processColumn file s t) st).dict) k).isSome = true := by
  induction cols with
  | nil => exact fun st k h => h
  | cons c cs ih =>
      intro st k h
      exact ih _ _ (processColumn_schemaKey_mono file s t st c k h)

theorem foldColumns_tableKey_mono (file s t : String) (cols : List Column) :
    ∀ (st : ScanState) (s' t' : String),
      (dictGet? ((dictGet? st.dict s').getD []) t').isSome = true →
      (dictGet? ((dictGet? ((cols.foldl (processColumn file s t) st).dict) s').getD [])
        t').isSome = true := by
  induction cols with
  | nil => exact fun st s' t' h => h
  | cons c cs ih =>
      intro st s' t' h
      exact ih _ _ _ (processColumn_tableKey_mono file s t st c s' t' h)

theorem processTable_schemaKey_mono (file s : String) (st : ScanState) (tbl : TableData)
    (k : String) (h : (dictGet? st.dict k).isSome = true) :
    (dictGet? (processTable file s st tbl).dict k).isSome = true := by
  unfold processTable
  by_cases hreg : (dictGet? ((dictGet? st.dict s).getD []) tbl.name).isNone
  · rw [if_pos hreg]
    exact foldColumns_schemaKey_mono file s tbl.name tbl.columns _ k
      (setTableEntry_schemaKey_mono _ _ _ _ _ h)
  · rw [if_neg hreg]
    exact foldColumns_schemaKey_mono file s tbl.name tbl.columns st k h

theorem processTable_tableKey_mono (file s : String) (st : ScanState) (tbl : TableData)
    (s' t' : String) (h : (dictGet? ((dictGet? st.dict s').getD []) t').isSome = true) :
    (dictGet? ((dictGet? (processTable file s st tbl).dict s').getD []) t').isSome = true := by
  unfold processTable
  by_cases hreg : (dictGet? ((dictGet? st.dict s).getD []) tbl.name).isNone
  · rw [if_pos hreg]
    exact foldColumns_tableKey_mono file s tbl.name tbl.columns _ s' t'
      (setTableEntry_tableKey_mono _ _ _ _ _ _ h)
  · rw [if_neg hreg]
    exact foldColumns_tableKey_mono file s tbl.name tbl.columns st s' t' h

theorem processTable_tablePresence_mono (file s2 : String) (st : ScanState) (tbl' : TableData)
    (s : String) (tbl : TableData) (h : tablePresence st.dict s tbl) :
    tablePresence (processTable file s2 st tbl').dict s tbl := by
  refine ⟨processTable_tableKey_mono file s2 st tbl' s tbl.name h.1, fun col hcol => ?_⟩
  exact (processTable_names file s2 st tbl' s tbl.name col.name).mpr (Or.inl (h.2 col hcol))

theorem foldTables_tablePresence_mono (file s2 : String) (tbls : List TableData) :
    ∀ (st : ScanState) (s : String) (tbl : TableData), tablePresence st.dict s tbl →
      tablePresence ((tbls.foldl (processTable file s2) st).dict) s tbl := by
  induction tbls with
  | nil => exact fun st s tbl h => h
  | cons tb tbs ih =>
      intro st s tbl h
      exact ih _ _ _ (processTable_tablePresence_mono file s2 st tb s tbl h)

theorem processTable_tablePresence_estab (file s : String) (st : ScanState) (tbl : TableData) :
    tablePresence (processTable file s st tbl).dict s tbl := by
  constructor
  · unfold processTable
    by_cases hreg : (dictGet? ((dictGet? st.dict s).getD []) tbl.name).isNone
    · rw [if_pos hreg]
      refine foldColumns_tableKey_mono file s tbl.name tbl.columns _ s tbl.name ?_
      show (dictGet? ((dictGet? (setTableEntry st.dict s tbl.name []) s).getD [])
        tbl.name).isSome = true
      unfold setTableEntry
      rw [dictGet?_dictSet_self]
      simp [dictGet?_dictSet_self]
    · rw [if_neg hreg]
      refine foldColumns_tableKey_mono file s tbl.name tbl.columns st s tbl.name ?_
      simpa [Option.isNone_iff_eq_none, Option.isSome_iff_ne_none] using hreg
  · intro col hcol
    exact (processTable_names file s st tbl s tbl.name col.name).mpr
      (Or.inr ⟨rfl, rfl, col, hcol, rfl⟩)

theorem foldTables_tablePresence_estab (file s : String) (tbls : List TableData) :
    ∀ (st : ScanState) (tbl : TableData), tbl ∈ tbls →
      tablePresence ((tbls.foldl (processTable file s) st).dict) s tbl := by
  induction tbls with
  | nil => intro st tbl h; cases h
  | cons tb tbs ih =>
      intro st tbl h
      rcases List.mem_cons.mp h with rfl | h'
      · exact foldTables_tablePresence_mono file s tbs _ s tbl
          (processTable_tablePresence_estab file s st tbl)
      · exact ih _ _ h'

theorem processSchema_schemaKey_mono (file : String) (st : ScanState) (sc : SchemaData)
    (k : String) (h : (dictGet? st.dict k).isSome = true) :
    (dictGet? (processSchema file st sc).dict k).isSome = true := by
  unfold processSchema
  have hfold : ∀ (tbls : List TableData) (st' : ScanState),
      (dictGet? st'.dict k).isSome = true →
      (dictGet? ((tbls.foldl (processTable file sc.name) st').dict) k).isSome = true := by
    intro tbls
    induction tbls with
    | nil => exact fun st' h' => h'
    | cons tb tbs ih =>
        intro st' h'
        exact ih _ (processTable_schemaKey_mono file sc.name st' tb k h')
  by_cases hreg : (dictGet? st.dict sc.name).isNone
  · rw [if_pos hreg]
    exact hfold sc.tables _ (dictGet?_dictSet_isSome _ _ _ _ h)
  · rw [if_neg hreg]
    exact hfold sc.tables st h

theorem processSchema_tablePresence_mono (file : String) (st : ScanState) (sc' : SchemaData)
    (s : String) (tbl : TableData) (h : tablePresence st.dict s tbl) :
    tablePresence (processSchema file st sc').dict s tbl := by
  refine ⟨?_, fun col hcol => ?_⟩
  · unfold processSchema
    have hfold : ∀ (tbls : List TableData) (st' : ScanState),
        (dictGet? ((dictGet? st'.dict s).getD []) tbl.name).isSome = true →
        (dictGet? ((dictGet? ((tbls.foldl (processTable file sc'.name) st').dict) s).getD [])
          tbl.name).isSome = true := by
      intro tbls
      induction tbls with
      | nil => exact fun st' h' => h'
      | cons tb tbs ih =>
          intro st' h'
          exact ih _ (processTable_tableKey_mono file sc'.name st' tb s tbl.name h')
    by_cases hreg : (dictGet? st.dict sc'.name).isNone
    · rw [if_pos hreg]
      refine hfold sc'.tables _ ?_
      show (dictGet? ((dictGet? (dictSet st.dict sc'.name []) s).getD [])
        tbl.name).isSome = true
      by_cases hs : s = sc'.name
      · subst hs
        rw [Option.isNone_iff_eq_none] at hreg
        have h1 := h.1
        rw [hreg] at h1
        simp [dictGet?] at h1
      · rw [dictGet?_dictSet_ne _ _ _ _ hs]
        exact h.1
    · rw [if_neg hreg]
      exact hfold sc'.tables st h.1
  · exact (processSchema_names file st sc' s tbl.name col.name).mpr (Or.inl (h.2 col hcol))

theorem processSchema_schemaPresence_mono (file : String) (st : ScanState) (sc' sc : SchemaData)
    (h : schemaPresence st.dict sc) : schemaPresence (processSchema file st sc').dict sc :=
  ⟨processSchema_schemaKey_mono file st sc' sc.name h.1,
   fun tbl htbl => processSchema_tablePresence_mono file st sc' sc.name tbl (h.2 tbl htbl)⟩

theorem processSchema_schemaPresence_estab (file : String) (st : ScanState) (sc : SchemaData) :
    schemaPresence (processSchema file st sc).dict sc := by
  constructor
  · unfold processSchema
    have hfold : ∀ (tbls : List TableData) (st' : ScanState),
        (dictGet? st'.dict sc.name).isSome = true →
        (dictGet? ((tbls.foldl (processTable file sc.name) st').dict) sc.name).isSome = true := by
      intro tbls
      induction tbls with
      | nil => exact fun st' h' => h'
      | cons tb tbs ih =>
          intro st' h'
          exact ih _ (processTable_schemaKey_mono file sc.name st' tb sc.name h')
    by_cases hreg : (dictGet? st.dict sc.name).isNone
    · rw [if_pos hreg]
      refine hfold sc.tables _ ?_
      show (dictGet? (dictSet st.dict sc.name []) sc.name).isSome = true
      rw [dictGet?_dictSet_self]
      rfl
    · rw [if_neg hreg]
      refine hfold sc.tables st ?_
      simpa [Option.isNone_iff_eq_none, Option.isSome_iff_ne_none] using hreg
  · intro tbl htbl
    unfold processSchema
    by_cases hreg : (dictGet? st.dict sc.name).isNone
    · rw [if_pos hreg]
      exact foldTables_tablePresence_estab file sc.name sc.tables _ tbl htbl
    · rw [if_neg hreg]
      exact foldTables_tablePresence_estab file sc.name sc.tables st tbl htbl

theorem processFile_filePresence (st : ScanState) (f : HyperFile) :
    filePresence (processFile st f).dict f := by
  unfold processFile
  have hgen : ∀ (scs : List SchemaData) (st' : ScanState) (sc : SchemaData), sc ∈ scs →
      schemaPresence ((scs.foldl (processSchema f.name) st').dict) sc := by
    intro scs
    induction scs with
    | nil => intro st' sc h; cases h
    | cons sc0 rest ih =>
        intro st' sc h
        rcases List.mem_cons.mp h with rfl | h'
        · have hestab := processSchema_schemaPresence_estab f.name st' sc
          have hmono : ∀ (scs2 : List SchemaData) (st2 : ScanState),
              schemaPresence st2.dict sc →
              schemaPresence ((scs2.foldl (processSchema f.name) st2).dict) sc := by
            intro scs2
            induction scs2 with
            | nil => exact fun st2 h2 => h2
            | cons x xs ih2 =>
                intro st2 h2
                exact ih2 _ (processSchema_schemaPresence_mono f.name st2 x sc h2)
          exact hmono rest _ hestab
        · exact ih _ sc h'
  exact fun sc h => hgen f.schemas st sc h

/-! A second scan of data that is already fully present leaves the
unified schema unchanged. -/

theorem processColumn_dict_of_present (file s t : String) (st : ScanState) (col : Column)
    (h : col.name ∈ entryNames st.dict s t) :
    (processColumn file s t st col).dict = st.dict := by
  have hex : ∃ c ∈ tableEntry st.dict s t, (c.name == col.name) = true := by
    unfold entryNames at h
    obtain ⟨c, hc, hcn⟩ := List.mem_map.mp h
    exact ⟨c, hc, by simp [hcn]⟩
  obtain ⟨m, hm⟩ := Option.isSome_iff_exists.mp (List.find?_isSome.mpr hex)
  exact processColumn_dict_of_found file s t st col m hm

theorem foldColumns_dict_of_present (file s t : String) (cols : List Column) :
    ∀ (st : ScanState), (∀ col ∈ cols, col.name ∈ entryNames st.dict s t) →
      ((cols.foldl (processColumn file s t) st).dict) = st.dict := by
  induction cols with
  | nil => exact fun st _ => rfl
  | cons c cs ih =>
      intro st h
      have hc : (processColumn file s t st c).dict = st.dict :=
        processColumn_dict_of_present file s t st c (h c (List.mem_cons_self c cs))
      have hnames : ∀ col ∈ cs,
          col.name ∈ entryNames (processColumn file s t st c).dict s t := by
        intro col hcol
        have heq : entryNames (processColumn file s t st c).dict s t
            = entryNames st.dict s t := by
          unfold entryNames tableEntry
          rw [hc]
        rw [heq]
        exact h col (List.mem_cons_of_mem c hcol)
      rw [List.foldl_cons, ih _ hnames, hc]

theorem processTable_dict_of_present (file s : String) (st : ScanState) (tbl : TableData)
    (h : tablePresence st.dict s tbl) :
    (processTable file s st tbl).dict = st.dict := by
  unfold processTable
  have hneg : ¬(dictGet? ((dictGet? st.dict s).getD []) tbl.name).isNone = true := by
    intro hnone
    rw [Option.isNone_iff_eq_none] at hnone
    have h1 := h.1
    rw [hnone] at h1
    simp at h1
  rw [if_neg hneg]
  exact foldColumns_dict_of_present file s tbl.name tbl.columns st h.2

theorem processSchema_dict_of_present (file : String) (st : ScanState) (sc : SchemaData)
    (h : schemaPresence st.dict sc) :
    (processSchema file st sc).dict = st.dict := by
  unfold processSchema
  have hneg : ¬(dictGet? st.dict sc.name).isNone = true := by
    intro hnone
    rw [Option.isNone_iff_eq_none] at hnone
    have h1 := h.1
    rw [hnone] at h1
    simp at h1
  rw [if_neg hneg]
  have hfold : ∀ (tbls : List TableData) (st' : ScanState), st'.dict = st.dict →
      (∀ tbl ∈ tbls, tablePresence st.dict sc.name tbl) →
      ((tbls.foldl (processTable file sc.name) st').dict) = st.dict := by
    intro tbls
    induction tbls with
    | nil => exact fun st' hd _ => hd
    | cons tb tbs ih =>
        intro st' hd hall
        have hstep : (processTable file sc.name st' tb).dict = st.dict := by
          rw [processTable_dict_of_present file sc.name st' tb
            (by rw [hd]; exact hall tb (List.mem_cons_self tb tbs))]
          exact hd
        exact ih _ hstep (fun tbl htbl => hall tbl (List.mem_cons_of_mem tb htbl))
  exact hfold sc.tables st rfl h.2

theorem processFile_dict_of_present (st : ScanState) (f : HyperFile)
    (h : filePresence st.dict f) :
    (processFile st f).dict = st.dict := by
  unfold processFile
  have hfold : ∀ (scs : List SchemaData) (st' : ScanState), st'.dict = st.dict →
      (∀ sc ∈ scs, schemaPresence st.dict sc) →
      ((scs.foldl (processSchema f.name) st').dict) = st.dict := by
    intro scs
    induction scs with
    | nil => exact fun st' hd _ => hd
    | cons sc rest ih =>
        intro st' hd hall
        have hstep : (processSchema f.name st' sc).dict = st.dict := by
          rw [processSchema_dict_of_present f.name st' sc
            (by rw [hd]; exact hall sc (List.mem_cons_self sc rest))]
          exact hd
        exact ih _ hstep (fun sc' hsc' => hall sc' (List.mem_cons_of_mem sc hsc'))
  exact hfold f.schemas st rfl h

/-! Identifier escaping is injective, so escaped-name comparison and
raw-name comparison agree on every pair of names. -/

theorem escapeChars_injective (a : List Char) : ∀ b, escapeChars a = escapeChars b → a = b := by
  induction a with
  | nil =>
      intro b h
      cases b with
      | nil => rfl
      | cons d ds =>
          exfalso
          by_cases hd : d = '"' <;> simp [escapeChars, hd] at h
  | cons c cs ih =>
      intro b h
      cases b with
      | nil =>
          exfalso
          by_cases hc : c = '"' <;> simp [escapeChars, hc] at h
      | cons d ds =>
          by_cases hc : c = '"' <;> by_cases hd : d = '"'
          · subst hc; subst hd
            simp [escapeChars] at h
            rw [ih ds h]
          · simp only [escapeChars, if_pos hc, if_neg hd, List.cons.injEq] at h
            exact absurd (hc ▸ h.1.symm) hd
          · simp only [escapeChars, if_neg hc, if_pos hd, List.cons.injEq] at h
            exact absurd (hd ▸ h.1) hc
          · simp only [escapeChars, if_neg hc, if_neg hd, List.cons.injEq] at h
            rw [h.1, ih ds h.2]

theorem escape_name_injective (a b : String) (h : escape_name a = escape_name b) : a = b := by
  have hd : ('"' :: (escapeChars a.data ++ ['"'])) = ('"' :: (escapeChars b.data ++ ['"'])) :=
    congrArg String.data h
  have h2 : escapeChars a.data ++ ['"'] = escapeChars b.data ++ ['"'] :=
    (List.cons.injEq _ _ _ _ ▸ hd).2
  have h3 : a.data = b.data := escapeChars_injective a.data b.data (List.append_cancel_right h2)
  cases a
  cases b
  exact congrArg String.mk h3

theorem escape_name_eq_iff (a b : String) : escape_name a = escape_name b ↔ a = b :=
  ⟨escape_name_injective a b, fun h => h ▸ rfl⟩

/-! Soundness of the SQL single-quoted-literal reader: whatever it
parses, the input must have been the content with quotes doubled,
followed by the closing quote and the rest. -/

theorem parseLitContent_sound :
    ∀ (n : Nat) (input : List Char), input.length ≤ n →
      ∀ (content rest : List Char), parseLitContent input = some (content, rest) →
        input = escapeLitChars content ++ squote :: rest := by
  intro n
  induction n with
  | zero =>
      intro input hlen content rest hp
      rw [List.length_eq_zero.mp (Nat.le_zero.mp hlen)] at hp
      simp [parseLitContent] at hp
  | succ n ih =>
      intro input hlen content rest hp
      cases input with
      | nil => simp [parseLitContent] at hp
      | cons c cs =>
          by_cases hc : c = squote
          · cases cs with
            | nil =>
                simp [parseLitContent, hc] at hp
                obtain ⟨rfl, rfl⟩ := hp
                simp [escapeLitChars, hc]
            | cons c2 cs2 =>
                by_cases hc2 : c2 = squote
                · simp only [parseLitContent, if_pos hc, if_pos hc2,
                    Option.map_eq_some'] at hp
                  obtain ⟨⟨content2, rest2⟩, hp2, heq⟩ := hp
                  have hlen2 : cs2.length ≤ n := by
                    simp at hlen
                    omega
                  have hrec := ih cs2 hlen2 content2 rest2 hp2
                  have hcontent : content = squote :: content2 := by
                    have := congrArg Prod.fst heq
                    simpa using this.symm
                  have hrest : rest = rest2 := by
                    have := congrArg Prod.snd heq
                    simpa using this.symm
                  subst hcontent
                  subst hrest
                  rw [hc, hc2, hrec]
                  simp [escapeLitChars]
                · simp only [parseLitContent, if_pos hc, if_neg hc2,
                    Option.some.injEq, Prod.mk.injEq] at hp
                  obtain ⟨rfl, rfl⟩ := hp
                  simp [escapeLitChars, hc]
          · have hstep : parseLitContent (c :: cs)
                = (parseLitContent cs).map (fun p => (c :: p.1, p.2)) := by
              cases cs with
              | nil => simp [parseLitContent, hc]
              | cons c2 cs2 => simp [parseLitContent, hc]
            rw [hstep, Option.map_eq_some'] at hp
            obtain ⟨⟨content2, rest2⟩, hp2, heq⟩ := hp
            have hlen2 : cs.length ≤ n := by
              simp at hlen
              omega
            have hrec := ih cs hlen2 content2 rest2 hp2
            have hcontent : content = c :: content2 := by
              have := congrArg Prod.fst heq
              simpa using this.symm
            have hrest : rest = rest2 := by
              have := congrArg Prod.snd heq
              simpa using this.symm
            subst hcontent
            subst hrest
            rw [hrec]
            simp [escapeLitChars, hc]

theorem count_escapeLitChars (xs : List Char) :
    (escapeLitChars xs).count squote = 2 * xs.count squote := by
  induction xs with
  | nil => simp [escapeLitChars]
  | cons c cs ih =>
      by_cases hc : c = squote
      · simp [escapeLitChars, hc, List.count_cons, ih]
        omega
      · simp [escapeLitChars, hc, List.count_cons, ih]

/-- A file name that contains a single quote never reads back from the
emitted provenance fragment: the single-quoted literal that starts it
cannot parse to the file name (whatever follows), because the fragment
embeds the name without doubling its quotes while every successful
parse doubles them. -/
theorem provenance_literal_misparse (xs tail r : List Char)
    (hq : squote ∈ xs) (ht : squote ∉ tail)
    (hp : parseLitContent (xs ++ squote :: tail) = some (xs, r)) : False := by
  have hsound := parseLitContent_sound (xs ++ squote :: tail).length _ le_rfl _ _ hp
  have hcount := congrArg (List.count squote) hsound
  simp only [List.count_append, List.count_cons, count_escapeLitChars] at hcount
  have hxs : 0 < xs.count squote := List.count_pos_iff.mpr hq
  have htail : tail.count squote = 0 := List.count_eq_zero.mpr ht
  simp [htail] at hcount
  omega

/-! Shape lemmas for the synthesized projection list. -/

theorem selectItemFor_of_not_prov (srcCols : List Column) (prov : String) (c : Column)
    (h : escape_name c.name ≠ escape_name prov) :
    ∃ e, selectItemFor srcCols prov c = some e ∧ outputColName e = c.name := by
  unfold selectItemFor
  by_cases hmem : c.name ∈ srcCols.map (fun x => x.name)
  · exact ⟨.colRef c.name, by rw [if_pos ⟨hmem, h⟩], rfl⟩
  · refine ⟨.nullLit c.name, ?_, rfl⟩
    rw [if_neg (fun hand => hmem hand.1), if_pos h]

theorem selectItemFor_of_prov (srcCols : List Column) (prov : String) (c : Column)
    (h : escape_name c.name = escape_name prov) :
    selectItemFor srcCols prov c = none := by
  unfold selectItemFor
  rw [if_neg (fun hand => hand.2 h), if_neg (fun hne => hne h)]

theorem filterMap_selectItems_names (srcCols : List Column) (prov : String) :
    ∀ (cols : List Column), (∀ c ∈ cols, c.name ≠ prov) →
      (cols.filterMap (selectItemFor srcCols prov)).map outputColName
        = cols.map (fun c => c.name) := by
  intro cols
  induction cols with
  | nil => intro _; rfl
  | cons c cs ih =>
      intro h
      have hc : escape_name c.name ≠ escape_name prov := by
        intro he
        exact h c (List.mem_cons_self c cs) (escape_name_injective _ _ he)
      obtain ⟨e, he, hname⟩ := selectItemFor_of_not_prov srcCols prov c hc
      rw [List.filterMap_cons, he, List.map_cons, List.map_cons, hname,
        ih (fun x hx => h x (List.mem_cons_of_mem c hx))]

theorem provenanceItems_of_enabled_file (file out prov : String)
    (hlen : 0 < prov.length) (hne : file ≠ out) :
    provenanceItems file out prov = [.fileLit file prov] := by
  unfold provenanceItems
  rw [if_pos hlen, if_pos hne]

theorem provenanceItems_of_enabled_output (out prov : String) (hlen : 0 < prov.length) :
    provenanceItems out out prov = [.passThrough prov prov] := by
  unfold provenanceItems
  rw [if_pos hlen, if_neg (fun h => h rfl)]

theorem provenanceItems_of_disabled (file out prov : String) (hlen : prov.length = 0) :
    provenanceItems file out prov = [] := by
  unfold provenanceItems
  rw [if_neg (by omega)]

/-! Order-independence machinery for conflict detection. -/

theorem find?_name_of_nodup (n : String) :
    ∀ (cols : List Column), (cols.map (fun c => c.name)).Nodup →
      ∀ ca ∈ cols, ca.name = n → cols.find? (fun c => c.name == n) = some ca := by
  intro cols
  induction cols with
  | nil => intro _ ca h; cases h
  | cons x xs ih =>
      intro hnodup ca hmem hname
      rcases List.mem_cons.mp hmem with rfl | hmem'
      · rw [List.find?_cons_of_pos _ (by simp [hname])]
      · have hx : x.name ≠ n := by
          intro hxn
          have : ca.name ∈ xs.map (fun c => c.name) :=
            List.mem_map_of_mem (fun c => c.name) hmem'
          rw [hname, ← hxn] at this
          exact (List.nodup_cons.mp (by simpa using hnodup)).1 this
        rw [List.find?_cons_of_neg _ (by simp [hx])]
        exact ih (List.nodup_cons.mp (by simpa using hnodup)).2 ca hmem' hname

theorem foldColumns_fresh (file s t : String) :
    ∀ (cols : List Column) (st : ScanState) (acc : TableEntry),
      tableEntry st.dict s t = acc →
      ((acc ++ cols).map (fun c => c.name)).Nodup →
      tableEntry ((cols.foldl (processColumn file s t) st).dict) s t = acc ++ cols
      ∧ (cols.foldl (processColumn file s t) st).conflicts = st.conflicts := by
  intro cols
  induction cols with
  | nil =>
      intro st acc hacc _
      constructor
      · simpa using hacc
      · rfl
  | cons c cs ih =>
      intro st acc hacc hnodup
      have hnotin : c.name ∉ acc.map (fun x => x.name) := by
        have h1 : ((acc.map (fun x => x.name))
            ++ ((c :: cs).map (fun x => x.name))).Nodup := by
          rw [← List.map_append]
          exact hnodup
        have h2 := (List.nodup_append.mp h1).2.2
        intro hmem
        exact h2 hmem (by simp)
      have hfind : (tableEntry st.dict s t).find? (fun x => x.name == c.name) = none := by
        rw [hacc]
        refine List.find?_eq_none.mpr (fun x hx => ?_)
        simp only [beq_iff_eq]
        intro hxc
        exact hnotin (hxc ▸ List.mem_map_of_mem (fun y => y.name) hx)
      have hstep := processColumn_of_new file s t st c hfind
      have hentry : tableEntry (processColumn file s t st c).dict s t = acc ++ [c] := by
        rw [hstep]
        show tableEntry (setTableEntry st.dict s t (tableEntry st.dict s t ++ [c])) s t
          = acc ++ [c]
        rw [tableEntry_setTableEntry_self, hacc]
      have hconf : (processColumn file s t st c).conflicts = st.conflicts := by
        rw [hstep]
      have hnodup2 : (((acc ++ [c]) ++ cs).map (fun x => x.name)).Nodup := by
        simpa [List.append_assoc] using hnodup
      obtain ⟨hih1, hih2⟩ := ih (processColumn file s t st c) (acc ++ [c]) hentry hnodup2
      refine ⟨?_, ?_⟩
      · rw [List.foldl_cons, hih1, List.append_assoc]
        rfl
      · rw [List.foldl_cons, hih2, hconf]

theorem foldColumns_conflict_emitted (file s t : String) :
    ∀ (cols : List Column) (st : ScanState) (cb ca : Column),
      cb ∈ cols →
      (tableEntry st.dict s t).find? (fun c => c.name == cb.name) = some ca →
      (cb.type ≠ ca.type ∨ cb.nullability ≠ ca.nullability ∨ cb.collation ≠ ca.collation) →
      (⟨s, t, cb.name, file, ca, cb⟩ : ConflictReport) ∈
        ((cols.foldl (processColumn file s t) st).conflicts) := by
  intro cols
  induction cols with
  | nil => intro st cb ca h; cases h
  | cons x xs ih =>
      intro st cb ca hmem hfind hne
      rcases List.mem_cons.mp hmem with rfl | hmem'
      · have hstep := processColumn_of_conflict file s t st cb ca hfind hne
        have hin : (⟨s, t, cb.name, file, ca, cb⟩ : ConflictReport)
            ∈ (processColumn file s t st cb).conflicts := by
          rw [hstep]
          simp
        obtain ⟨tail, htail⟩ :=
          foldColumns_conflicts_extends file s t xs (processColumn file s t st cb)
        rw [List.foldl_cons, htail]
        exact List.mem_append_left tail hin
      · obtain ⟨tail, htail⟩ := processColumn_entry_extends file s t s t st x
        have hfind' : (tableEntry (processColumn file s t st x).dict s t).find?
            (fun c => c.name == cb.name) = some ca := by
          rw [htail]
          exact find?_append_some _ _ tail ca hfind
        rw [List.foldl_cons]
        exact ih (processColumn file s t st x) cb ca hmem' hfind' hne

/-! Reduction of a single-schema single-table file scan to its column
fold. -/

theorem processFile_singleton_present (fname s t : String) (cols : List Column)
    (rows : List (List Value)) (st : ScanState)
    (hs : (dictGet? st.dict s).isSome = true)
    (ht : (dictGet? ((dictGet? st.dict s).getD []) t).isSome = true) :
    processFile st ⟨fname, [⟨s, [⟨t, cols, rows⟩]⟩]⟩
      = cols.foldl (processColumn fname s t) st := by
  have hs' : ¬(dictGet? st.dict s).isNone = true := by
    rw [Option.isNone_iff_eq_none]
    intro h
    rw [h] at hs
    simp at hs
  have ht' : ¬(dictGet? ((dictGet? st.dict s).getD []) t).isNone = true := by
    rw [Option.isNone_iff_eq_none]
    intro h
    rw [h] at ht
    simp at ht
  simp only [processFile, List.foldl_cons, List.foldl_nil]
  simp only [processSchema]
  rw [if_neg hs']
  simp only [List.foldl_cons, List.foldl_nil]
  simp only [processTable]
  rw [if_neg ht']

theorem processFile_singleton_empty (fname s t : String) (cols : List Column)
    (rows : List (List Value)) :
    processFile ⟨[], []⟩ ⟨fname, [⟨s, [⟨t, cols, rows⟩]⟩]⟩
      = cols.foldl (processColumn fname s t) ⟨[(s, [(t, [])])], []⟩ := by
  simp only [processFile, List.foldl_cons, List.foldl_nil]
  simp only [processSchema]
  rw [if_pos (by simp [dictGet?])]
  simp only [List.foldl_cons, List.foldl_nil]
  simp only [processTable]
  rw [if_pos (by simp [dictGet?, dictSet])]
  congr 1
  simp [setTableEntry, dictGet?, dictSet]

theorem scanFiles_pair (f g : HyperFile) :
    scanFiles [f, g] = processFile (processFile ⟨[], []⟩ f) g := rfl

/-- Scanning two single-table files that disagree on one column: the
first-scanned definition stays in the unified entry and a conflict
report against the second file is emitted, whichever file this is
instantiated with first. -/
theorem scan_two_files_conflict (fa fb s t : String)
    (colsA colsB : List Column) (rowsA rowsB : List (List Value)) (ca cb : Column)
    (hA : (colsA.map (fun c => c.name)).Nodup)
    (hca : ca ∈ colsA) (hcb : cb ∈ colsB) (hname : cb.name = ca.name)
    (hne : cb.type ≠ ca.type ∨ cb.nullability ≠ ca.nullability
      ∨ cb.collation ≠ ca.collation) :
    (⟨s, t, cb.name, fb, ca, cb⟩ : ConflictReport)
        ∈ (scanFiles [⟨fa, [⟨s, [⟨t, colsA, rowsA⟩]⟩]⟩,
            ⟨fb, [⟨s, [⟨t, colsB, rowsB⟩]⟩]⟩]).conflicts
    ∧ (tableEntry (scanFiles [⟨fa, [⟨s, [⟨t, colsA, rowsA⟩]⟩]⟩,
          ⟨fb, [⟨s, [⟨t, colsB, rowsB⟩]⟩]⟩]).dict s t).find?
        (fun c => c.name == ca.name) = some ca := by
  have hA1 : processFile ⟨[], []⟩ ⟨fa, [⟨s, [⟨t, colsA, rowsA⟩]⟩]⟩
      = colsA.foldl (processColumn fa s t) ⟨[(s, [(t, [])])], []⟩ :=
    processFile_singleton_empty fa s t colsA rowsA
  have hentry0 : tableEntry (⟨[(s, [(t, [])])], []⟩ : ScanState).dict s t = [] := by
    simp [tableEntry, dictGet?]
  obtain ⟨hentryA, hconfA⟩ :=
    foldColumns_fresh fa s t colsA ⟨[(s, [(t, [])])], []⟩ [] hentry0 (by simpa using hA)
  have hkeyS : (dictGet? (colsA.foldl (processColumn fa s t)
      ⟨[(s, [(t, [])])], []⟩).dict s).isSome = true :=
    foldColumns_schemaKey_mono fa s t colsA ⟨[(s, [(t, [])])], []⟩ s (by simp [dictGet?])
  have hkeyT : (dictGet? ((dictGet? (colsA.foldl (processColumn fa s t)
      ⟨[(s, [(t, [])])], []⟩).dict s).getD []) t).isSome = true :=
    foldColumns_tableKey_mono fa s t colsA ⟨[(s, [(t, [])])], []⟩ s t (by simp [dictGet?])
  have hB1 : processFile (colsA.foldl (processColumn fa s t) ⟨[(s, [(t, [])])], []⟩)
        ⟨fb, [⟨s, [⟨t, colsB, rowsB⟩]⟩]⟩
      = colsB.foldl (processColumn fb s t)
          (colsA.foldl (processColumn fa s t) ⟨[(s, [(t, [])])], []⟩) :=
    processFile_singleton_present fb s t colsB rowsB _ hkeyS hkeyT
  have hfindA : colsA.find? (fun c => c.name == ca.name) = some ca :=
    find?_name_of_nodup ca.name colsA hA ca hca rfl
  have hfind : (tableEntry (colsA.foldl (processColumn fa s t)
      ⟨[(s, [(t, [])])], []⟩).dict s t).find? (fun c => c.name == cb.name) = some ca := by
    rw [hentryA, hname]
    exact hfindA
  constructor
  · rw [scanFiles_pair, hA1, hB1]
    exact foldColumns_conflict_emitted fb s t colsB _ cb ca hcb hfind hne
  · rw [scanFiles_pair, hA1, hB1]
    obtain ⟨tail, htail⟩ := foldColumns_entry_extends fb s t colsB
      (colsA.foldl (processColumn fa s t) ⟨[(s, [(t, [])])], []⟩) s t
    rw [htail, hentryA]
    exact find?_append_some _ colsA tail ca hfindA

/-! Concrete sample data used by the witnesses and counterexamples. -/

/-- Sample column `id:int`. -/
def idInt : Column := ⟨"id", "int", Nullability.NULLABLE, none⟩

/-- Sample column `id:int not null`. -/
def idNotNull : Column := ⟨"id", "int", Nullability.NOT_NULLABLE, none⟩

/-- Sample column `amount:double`. -/
def amountDouble : Column := ⟨"amount", "double", Nullability.NULLABLE, none⟩

/-- Sample column `amount:text`, conflicting with `amountDouble`. -/
def amountText : Column := ⟨"amount", "text", Nullability.NULLABLE, none⟩

/-- Sample column `vat:double`. -/
def vatDouble : Column := ⟨"vat", "double", Nullability.NULLABLE, none⟩

/-- Sample column named like the default provenance column. -/
def sfText : Column := ⟨"source_file", "text", Nullability.NULLABLE, none⟩

/-- Sample source file with table `public.sales (id, amount)`. -/
def salesUS : HyperFile :=
  ⟨"sales_us.hyper", [⟨"public", [⟨"sales", [idInt, amountDouble],
    [[some "1", some "10.0"]]⟩]⟩]⟩

/-- Sample source file with table `public.sales (id, amount, vat)`. -/
def salesEU : HyperFile :=
  ⟨"sales_eu.hyper", [⟨"public", [⟨"sales", [idInt, amountDouble, vatDouble],
    [[some "2", some "20.0", some "4.0"]]⟩]⟩]⟩

/-- Sample file standing for one whose open fails during the scan. -/
def badFile : HyperFile := ⟨"bad.hyper", [⟨"public", [⟨"sales", [idInt], []⟩]⟩]⟩

/-- Sample file that scans cleanly next to `badFile`. -/
def goodFile : HyperFile := ⟨"good.hyper", [⟨"public", [⟨"sales", [idInt, amountDouble], []⟩]⟩]⟩

/-! Claim theorems. -/

/-- C1: for every (namespace, table) pair, after scanning all source
files the unified column set for that pair is exactly the union of the
column names seen across all source files that contain that table; a
column is inserted (as-is, at the end) the first time its name
appears, and a column name, once present, is never removed by a later
scan step. -/
theorem c1_unified_columns_are_union :
    (∀ (files : List HyperFile) (s t n : String),
        n ∈ entryNames (scanFiles files).dict s t ↔
          ∃ f ∈ files, ∃ c ∈ fileColumnsFor f s t, c.name = n)
    ∧ (∀ (file s t : String) (st : ScanState) (col : Column),
        (tableEntry st.dict s t).find? (fun c => c.name == col.name) = none →
        tableEntry (processColumn file s t st col).dict s t
          = tableEntry st.dict s t ++ [col])
    ∧ (∀ (st : ScanState) (f : HyperFile) (s t n : String),
        n ∈ entryNames st.dict s t → n ∈ entryNames (processFile st f).dict s t) := by
  refine ⟨?_, ?_, ?_⟩
  · intro files s t n
    have h := scanFiles_names files ⟨[], []⟩ s t n
    have hinit : n ∈ entryNames (⟨[], []⟩ : ScanState).dict s t ↔ False := by
      simp [entryNames, tableEntry, dictGet?]
    rw [show scanFiles files = files.foldl processFile ⟨[], []⟩ from rfl, h, hinit]
    simp
  · intro file s t st col h
    rw [processColumn_of_new file s t st col h]
    exact tableEntry_setTableEntry_self st.dict s t _
  · intro st f s t n h
    exact (processFile_names st f s t n).mpr (Or.inl h)

/-- Witness for C1 on the two sample files. -/
theorem c1_witness :
    ("vat" ∈ entryNames (scanFiles [salesUS, salesEU]).dict "public" "sales" ↔
      ∃ f ∈ [salesUS, salesEU], ∃ c ∈ fileColumnsFor f "public" "sales", c.name = "vat")
    ∧ tableEntry (processColumn "sales_us.hyper" "public" "sales" ⟨[], []⟩ idInt).dict
        "public" "sales" = tableEntry (⟨[], []⟩ : ScanState).dict "public" "sales" ++ [idInt]
    ∧ "id" ∈ entryNames (processFile (scanFiles [salesUS]) salesEU).dict "public" "sales" :=
  ⟨c1_unified_columns_are_union.1 [salesUS, salesEU] "public" "sales" "vat",
   c1_unified_columns_are_union.2.1 "sales_us.hyper" "public" "sales" ⟨[], []⟩ idInt (by decide),
   c1_unified_columns_are_union.2.2 (scanFiles [salesUS]) salesEU "public" "sales" "id"
     (by decide)⟩

/-- C2: a rescanned column whose (type, nullability, collation) triple
equals the existing entry changes nothing; a differing triple appends
exactly one conflict report (schema, table, column, file, existing and
conflicting definitions) and keeps the unified schema unchanged — no
exception path exists; and for two files that disagree on a column,
the conflict is reported under either scan order, the order deciding
only which definition stays in the unified entry. -/
theorem c2_first_seen_wins :
    (∀ (file s t : String) (st : ScanState) (col matching : Column),
        (tableEntry st.dict s t).find? (fun c => c.name == col.name) = some matching →
        col.type = matching.type → col.nullability = matching.nullability →
        col.collation = matching.collation →
        processColumn file s t st col = st)
    ∧ (∀ (file s t : String) (st : ScanState) (col matching : Column),
        (tableEntry st.dict s t).find? (fun c => c.name == col.name) = some matching →
        (col.type ≠ matching.type ∨ col.nullability ≠ matching.nullability
          ∨ col.collation ≠ matching.collation) →
        processColumn file s t st col
          = { st with conflicts :=
              st.conflicts ++ [⟨s, t, col.name, file, matching, col⟩] })
    ∧ (∀ (fa fb s t : String) (colsA colsB : List Column)
        (rowsA rowsB : List (List Value)) (ca cb : Column),
        (colsA.map (fun c => c.name)).Nodup → (colsB.map (fun c => c.name)).Nodup →
        ca ∈ colsA → cb ∈ colsB → cb.name = ca.name →
        (cb.type ≠ ca.type ∨ cb.nullability ≠ ca.nullability
          ∨ cb.collation ≠ ca.collation) →
        ((⟨s, t, cb.name, fb, ca, cb⟩ : ConflictReport)
            ∈ (scanFiles [⟨fa, [⟨s, [⟨t, colsA, rowsA⟩]⟩]⟩,
                ⟨fb, [⟨s, [⟨t, colsB, rowsB⟩]⟩]⟩]).conflicts
          ∧ (tableEntry (scanFiles [⟨fa, [⟨s, [⟨t, colsA, rowsA⟩]⟩]⟩,
                ⟨fb, [⟨s, [⟨t, colsB, rowsB⟩]⟩]⟩]).dict s t).find?
              (fun c => c.name == ca.name) = some ca)
        ∧ ((⟨s, t, ca.name, fa, cb, ca⟩ : ConflictReport)
            ∈ (scanFiles [⟨fb, [⟨s, [⟨t, colsB, rowsB⟩]⟩]⟩,
                ⟨fa, [⟨s, [⟨t, colsA, rowsA⟩]⟩]⟩]).conflicts
          ∧ (tableEntry (scanFiles [⟨fb, [⟨s, [⟨t, colsB, rowsB⟩]⟩]⟩,
                ⟨fa, [⟨s, [⟨t, colsA, rowsA⟩]⟩]⟩]).dict s t).find?
              (fun c => c.name == cb.name) = some cb)) := by
  refine ⟨processColumn_of_match, processColumn_of_conflict, ?_⟩
  intro fa fb s t colsA colsB rowsA rowsB ca cb hA hB hca hcb hname hne
  constructor
  · exact scan_two_files_conflict fa fb s t colsA colsB rowsA rowsB ca cb hA hca hcb hname hne
  · refine scan_two_files_conflict fb fa s t colsB colsA rowsB rowsA cb ca hB hcb hca
      hname.symm ?_
    rcases hne with h | h | h
    · exact Or.inl (Ne.symm h)
    · exact Or.inr (Or.inl (Ne.symm h))
    · exact Or.inr (Or.inr (Ne.symm h))

/-- Witness for C2: a matching rescan is a no-op, and the sample
`amount:double` versus `amount:text` conflict is reported under both
scan orders. -/
theorem c2_witness :
    processColumn "sales_eu.hyper" "public" "sales" (scanFiles [salesUS]) idInt
        = scanFiles [salesUS]
    ∧ (((⟨"public", "sales", "amount", "b.hyper", amountDouble, amountText⟩ : ConflictReport)
          ∈ (scanFiles [⟨"a.hyper", [⟨"public", [⟨"sales", [amountDouble], []⟩]⟩]⟩,
              ⟨"b.hyper", [⟨"public", [⟨"sales", [amountText], []⟩]⟩]⟩]).conflicts
        ∧ (tableEntry (scanFiles [⟨"a.hyper", [⟨"public", [⟨"sales", [amountDouble], []⟩]⟩]⟩,
              ⟨"b.hyper", [⟨"public", [⟨"sales", [amountText], []⟩]⟩]⟩]).dict
            "public" "sales").find? (fun c => c.name == amountDouble.name)
          = some amountDouble)
      ∧ ((⟨"public", "sales", "amount", "a.hyper", amountText, amountDouble⟩ : ConflictReport)
          ∈ (scanFiles [⟨"b.hyper", [⟨"public", [⟨"sales", [amountText], []⟩]⟩]⟩,
              ⟨"a.hyper", [⟨"public", [⟨"sales", [amountDouble], []⟩]⟩]⟩]).conflicts
        ∧ (tableEntry (scanFiles [⟨"b.hyper", [⟨"public", [⟨"sales", [amountText], []⟩]⟩]⟩,
              ⟨"a.hyper", [⟨"public", [⟨"sales", [amountDouble], []⟩]⟩]⟩]).dict
            "public" "sales").find? (fun c => c.name == amountText.name)
          = some amountText)) :=
  ⟨c2_first_seen_wins.1 "sales_eu.hyper" "public" "sales" (scanFiles [salesUS])
      idInt idInt (by decide) rfl rfl rfl,
   c2_first_seen_wins.2.2 "a.hyper" "b.hyper" "public" "sales" [amountDouble] [amountText]
      [] [] amountDouble amountText (by decide) (by decide) (by decide) (by decide)
      (by decide) (Or.inl (by decide))⟩

/-- C4: every column of every built output table definition is
nullable, whatever the sources declared; the synthetic provenance
column is appended as NOT_NULLABLE but, like every other column, is
forced nullable when the target table definition is built. -/
theorem c4_output_all_nullable :
    (∀ (cols : List Column) (prov : String) (c : Column),
        c ∈ buildTableDefinition (addProvenance cols prov) →
        c.nullability = Nullability.NULLABLE)
    ∧ (∀ (cols : List Column) (prov : String),
        0 < prov.length →
        (cols.filter (fun column => escape_name column.name = escape_name prov)) = [] →
        addProvenance cols prov
          = cols ++ [⟨prov, "text", Nullability.NOT_NULLABLE, none⟩]) := by
  constructor
  · intro cols prov c hc
    unfold buildTableDefinition at hc
    obtain ⟨c0, _, rfl⟩ := List.mem_map.mp hc
    rfl
  · intro cols prov hlen hfilter
    unfold addProvenance
    rw [if_pos ⟨hlen, by rw [hfilter]; simp⟩]

/-- Witness for C4 on a NOT_NULLABLE sample column. -/
theorem c4_witness :
    ((⟨"id", "int", Nullability.NULLABLE, none⟩ : Column).nullability = Nullability.NULLABLE)
    ∧ addProvenance [idNotNull] "source_file"
        = [idNotNull] ++ [⟨"source_file", "text", Nullability.NOT_NULLABLE, none⟩] :=
  ⟨c4_output_all_nullable.1 [idNotNull] "source_file"
      ⟨"id", "int", Nullability.NULLABLE, none⟩ (by decide),
   c4_output_all_nullable.2 [idNotNull] "source_file" (by decide) (by decide)⟩

/-- C8: identifier escaping is injective, so the raw-name membership
tests of the scan phase (line 91) and of the query synthesis
(line 154) agree with the escaped-name filter of the provenance check
(line 121) on every pair of names: the same pair compares equal under
all three rules. -/
theorem c8_consistent_name_comparison :
    (∀ a b : String, escape_name a = escape_name b ↔ a = b)
    ∧ (∀ (cols : List Column) (n : String),
        (n ∈ cols.map (fun c => c.name)) ↔
          1 ≤ (cols.filter (fun c => escape_name c.name = escape_name n)).length)
    ∧ (∀ (cols : List Column) (n : String),
        ((cols.find? (fun c => c.name == n)).isSome = true) ↔
          n ∈ cols.map (fun c => c.name)) := by
  refine ⟨escape_name_eq_iff, ?_, ?_⟩
  · intro cols n
    constructor
    · intro h
      obtain ⟨c, hc, hcn⟩ := List.mem_map.mp h
      have hmem : c ∈ cols.filter (fun c => escape_name c.name = escape_name n) := by
        rw [List.mem_filter]
        exact ⟨hc, by simp [hcn]⟩
      have hlen : 0 < (cols.filter
          (fun c => escape_name c.name = escape_name n)).length :=
        List.length_pos.mpr (List.ne_nil_of_mem hmem)
      omega
    · intro h
      have hne : cols.filter (fun c => escape_name c.name = escape_name n) ≠ [] := by
        intro hnil
        rw [hnil] at h
        simp at h
      obtain ⟨c, hc⟩ := List.exists_mem_of_ne_nil _ hne
      rw [List.mem_filter] at hc
      have hcc := hc.2
      simp only [decide_eq_true_eq] at hcc
      exact List.mem_map.mpr ⟨c, hc.1, escape_name_injective _ _ hcc⟩
  · intro cols n
    rw [List.find?_isSome]
    constructor
    · rintro ⟨c, hc, hcn⟩
      simp only [beq_iff_eq] at hcn
      exact List.mem_map.mpr ⟨c, hc, hcn⟩
    · intro h
      obtain ⟨c, hc, hcn⟩ := List.mem_map.mp h
      exact ⟨c, hc, by simp [hcn]⟩

/-- C9: scanning the same source file twice yields a unified schema
identical to scanning it once: the second pass adds no column and
alters no existing definition. -/
theorem c9_scan_idempotent (st : ScanState) (f : HyperFile) :
    (processFile (processFile st f) f).dict = (processFile st f).dict :=
  processFile_dict_of_present (processFile st f) f (processFile_filePresence st f)

/-- C3 counterexample: when the unified table definition already holds
a column named like the provenance column in non-final position (as
happens when some source file itself has a `source_file` column), the
synthesized projection emits its provenance-named output column last,
so the output column order is not the unified column order. -/
theorem c3_counterexample :
    (buildSelectExprs (buildTableDefinition (addProvenance [sfText, idInt] "source_file"))
        [sfText, idInt] "a.hyper" "union.hyper" "source_file").map outputColName
      ≠ (buildTableDefinition (addProvenance [sfText, idInt] "source_file")).map
          (fun c => c.name) := by decide

/-- C3 (amended): pairs whose source file lacks the schema or table
are skipped without error; and the synthesized projection has exactly
one output column per unified column, in the unified order, provided
the provenance-named column, when enabled, is the last unified column
(which holds whenever the builder appended it rather than a source
file supplying it mid-table). -/
theorem c3_projection_columns :
    (∀ (f : HyperFile) (s t : String) (tdCols : List Column)
        (args_output_file prov : String),
        findTable f s t = none →
        moveRowsForPair f s t tdCols args_output_file prov = none)
    ∧ (∀ (tdCols srcCols : List Column) (file args_output_file prov : String),
        prov.length = 0 → (∀ c ∈ tdCols, c.name ≠ prov) →
        (buildSelectExprs tdCols srcCols file args_output_file prov).map outputColName
          = tdCols.map (fun c => c.name))
    ∧ (∀ (base : List Column) (pc : Column) (srcCols : List Column)
        (file args_output_file prov : String),
        0 < prov.length → pc.name = prov → (∀ c ∈ base, c.name ≠ prov) →
        (buildSelectExprs (base ++ [pc]) srcCols file args_output_file prov).map
            outputColName
          = (base ++ [pc]).map (fun c => c.name)) := by
  refine ⟨?_, ?_, ?_⟩
  · intro f s t tdCols args_output_file prov hnone
    simp [moveRowsForPair, hnone]
  · intro tdCols srcCols file args_output_file prov hlen hnames
    unfold buildSelectExprs
    rw [provenanceItems_of_disabled file args_output_file prov hlen, List.append_nil]
    exact filterMap_selectItems_names srcCols prov tdCols hnames
  · intro base pc srcCols file args_output_file prov hlen hpcname hbase
    unfold buildSelectExprs
    rw [List.filterMap_append]
    have hpc : ([pc].filterMap (selectItemFor srcCols prov)) = [] := by
      rw [List.filterMap_cons, selectItemFor_of_prov srcCols prov pc (by rw [hpcname])]
      rfl
    rw [hpc, List.append_nil]
    have hbasemap := filterMap_selectItems_names srcCols prov base hbase
    by_cases hne : file ≠ args_output_file
    · rw [provenanceItems_of_enabled_file file args_output_file prov hlen hne,
        List.map_append, List.map_append, hbasemap]
      simp [outputColName, hpcname]
    · push_neg at hne
      subst hne
      rw [provenanceItems_of_enabled_output file prov hlen,
        List.map_append, List.map_append, hbasemap]
      simp [outputColName, hpcname]

/-- Witness for C3 (amended) on the sample tables. -/
theorem c3_witness :
    moveRowsForPair salesUS "public" "archive"
        (buildTableDefinition (addProvenance [idInt] "source_file"))
        "union.hyper" "source_file" = none
    ∧ (buildSelectExprs ([idInt, vatDouble] ++ [sfText]) [idInt]
          "sales_us.hyper" "union.hyper" "source_file").map outputColName
        = ([idInt, vatDouble] ++ [sfText]).map (fun c => c.name) :=
  ⟨c3_projection_columns.1 salesUS "public" "archive"
      (buildTableDefinition (addProvenance [idInt] "source_file"))
      "union.hyper" "source_file" (by decide),
   c3_projection_columns.2.2 [idInt, vatDouble] sfText [idInt]
      "sales_us.hyper" "union.hyper" "source_file" (by decide) (by decide) (by decide)⟩

/-- C5: with the provenance column enabled, every output row produced
for an ordinary worklist file carries the file name literal as its
last (provenance) output column; for the worklist entry whose name
equals the configured output path, the provenance output column
instead passes through the value the source row already stores under
the provenance column name. -/
theorem c5_provenance_values (tdCols srcCols : List Column) (rows : List (List Value))
    (file args_output_file prov : String) (hlen : 0 < prov.length) :
    (file ≠ args_output_file →
      ∀ outRow ∈ evalQuery (buildSelectExprs tdCols srcCols file args_output_file prov)
          srcCols rows,
        outRow.getLast? = some (some file))
    ∧ (∀ srcRow : List Value,
        ((buildSelectExprs tdCols srcCols args_output_file args_output_file prov).map
            (evalSelectExpr srcCols srcRow)).getLast?
          = some (lookupColValue srcCols srcRow prov)) := by
  constructor
  · intro hne outRow hmem
    unfold evalQuery at hmem
    obtain ⟨srcRow, _, rfl⟩ := List.mem_map.mp hmem
    unfold buildSelectExprs
    rw [provenanceItems_of_enabled_file file args_output_file prov hlen hne,
      List.map_append]
    simp [List.getLast?_concat, evalSelectExpr]
  · intro srcRow
    unfold buildSelectExprs
    rw [provenanceItems_of_enabled_output args_output_file prov hlen, List.map_append]
    simp [List.getLast?_concat, evalSelectExpr]

/-- Witness for C5: a literal for an ordinary file, a pass-through for
the preserved prior output file. -/
theorem c5_witness :
    (∀ outRow ∈ evalQuery (buildSelectExprs
          (buildTableDefinition (addProvenance [idInt, vatDouble] "source_file")) [idInt]
          "sales_us.hyper" "union.hyper" "source_file") [idInt] [[some "1"]],
        outRow.getLast? = some (some "sales_us.hyper"))
    ∧ ((buildSelectExprs (buildTableDefinition (addProvenance [idInt, vatDouble]
            "source_file")) [idInt, sfText] "union.hyper" "union.hyper" "source_file").map
          (evalSelectExpr [idInt, sfText] [some "7", some "orig.hyper"])).getLast?
        = some (lookupColValue [idInt, sfText] [some "7", some "orig.hyper"] "source_file") :=
  ⟨(c5_provenance_values (buildTableDefinition (addProvenance [idInt, vatDouble]
        "source_file")) [idInt] [[some "1"]] "sales_us.hyper" "union.hyper" "source_file"
      (by decide)).1 (by decide),
   (c5_provenance_values (buildTableDefinition (addProvenance [idInt, vatDouble]
        "source_file")) [idInt, sfText] [] "union.hyper" "union.hyper" "source_file"
      (by decide)).2 [some "7", some "orig.hyper"]⟩

/-- C6 counterexample: the placeholder synthesized for a missing
column is the same expression for two different declared types, and
its rendered text is a bare `NULL` with no type, so the placeholder
does not carry the unified column's declared type. -/
theorem c6_counterexample :
    selectItemFor [] "source_file" ⟨"vat", "double", Nullability.NULLABLE, none⟩
      = some (SelectExpr.nullLit "vat")
    ∧ selectItemFor [] "source_file" ⟨"vat", "text", Nullability.NULLABLE, none⟩
      = some (SelectExpr.nullLit "vat")
    ∧ renderSelectItem (SelectExpr.nullLit "vat") = " NULL as \"vat\"," := by
  refine ⟨by decide, by decide, by decide⟩

/-- C6 (amended): for every unified column other than the provenance
column that the source table lacks, the synthesized query emits an
untyped NULL placeholder — the bare keyword `NULL` aliased to the
escaped column name, with no type annotation. -/
theorem c6_untyped_null_placeholder (srcCols : List Column) (prov : String)
    (column : Column)
    (hmem : column.name ∉ srcCols.map (fun c => c.name))
    (hprov : escape_name column.name ≠ escape_name prov) :
    selectItemFor srcCols prov column = some (.nullLit column.name)
    ∧ renderSelectItem (.nullLit column.name)
        = " NULL as " ++ escape_name column.name ++ "," := by
  refine ⟨?_, rfl⟩
  unfold selectItemFor
  rw [if_neg (fun hand => hmem hand.1), if_pos hprov]

/-- Witness for C6 (amended) on the sample `vat` column. -/
theorem c6_witness :
    selectItemFor [idInt] "source_file" vatDouble = some (.nullLit vatDouble.name)
    ∧ renderSelectItem (.nullLit vatDouble.name)
        = " NULL as " ++ escape_name vatDouble.name ++ "," :=
  c6_untyped_null_placeholder [idInt] "source_file" vatDouble (by decide) (by decide)

/-- C7 counterexample: a file whose open fails contributes nothing to
the scan, yet the row-move phase still attempts it — it remains on the
worklist, and every worklist file is attempted for every unified
table. -/
theorem c7_counterexample :
    scanFilesSafe ["bad.hyper"] [badFile, goodFile] = scanFiles [goodFile]
    ∧ ("public", "sales", "bad.hyper") ∈
        rowMoveAttempts (scanFilesSafe ["bad.hyper"] [badFile, goodFile]).dict
          ["bad.hyper", "good.hyper"] :=
  ⟨by decide, by decide⟩

/-- C7 (amended): a scan failure is caught per-file — the scan of all
files equals the scan of just the non-failing files, so the remaining
files are still scanned and the failed file contributes nothing; but
the failed file is attempted again during the row-move phase, whose
loops visit every worklist file for every unified table. -/
theorem c7_scan_failure_policy :
    (∀ (bad : List String) (files : List HyperFile),
        scanFilesSafe bad files
          = scanFiles (files.filter (fun f => ¬bad.contains f.name)))
    ∧ (∀ (dict : OutputDict) (worklist : List String) (f s t : String)
        (se : SchemaEntry) (te : TableEntry),
        f ∈ worklist → (s, se) ∈ dict → (t, te) ∈ se →
        (s, t, f) ∈ rowMoveAttempts dict worklist) := by
  constructor
  · intro bad files
    unfold scanFilesSafe scanFiles
    have hgen : ∀ (fs : List HyperFile) (st : ScanState),
        fs.foldl (fun st f => if bad.contains f.name then st else processFile st f) st
          = (fs.filter (fun f => ¬bad.contains f.name)).foldl processFile st := by
      intro fs
      induction fs with
      | nil => intro st; rfl
      | cons f fs ih =>
          intro st
          by_cases hb : bad.contains f.name
          · have hm : f.name ∈ bad := by simpa using hb
            rw [List.foldl_cons, if_pos hb, List.filter_cons, if_neg (by simp [hm])]
            exact ih st
          · have hm : f.name ∉ bad := by simpa using hb
            rw [List.foldl_cons, if_neg hb, List.filter_cons, if_pos (by simp [hm]),
              List.foldl_cons]
            exact ih (processFile st f)
    exact hgen files ⟨[], []⟩
  · intro dict worklist f s t se te hf hs ht
    unfold rowMoveAttempts
    rw [List.mem_flatMap]
    refine ⟨(s, se), hs, ?_⟩
    rw [List.mem_flatMap]
    exact ⟨(t, te), ht, List.mem_map.mpr ⟨f, hf, rfl⟩⟩

/-- Witness for C7 (amended) on the sample files. -/
theorem c7_witness :
    scanFilesSafe ["bad.hyper"] [badFile]
        = scanFiles ([badFile].filter (fun f => ¬(["bad.hyper"].contains f.name)))
    ∧ ("public", "sales", "bad.hyper") ∈
        rowMoveAttempts [("public", [("sales", [idInt])])] ["bad.hyper"] :=
  ⟨c7_scan_failure_policy.1 ["bad.hyper"] [badFile],
   c7_scan_failure_policy.2 [("public", [("sales", [idInt])])] ["bad.hyper"]
      "bad.hyper" "public" "sales" [("sales", [idInt])] [idInt]
      (by decide) (by decide) (by decide)⟩

/-- C10: with the provenance column enabled, the synthesized
provenance expression embeds the file name as a raw single-quoted
literal with no quote escaping and aliases it with the raw configured
column name (no identifier escaping); consequently, for every file
name containing a single quote the emitted text is malformed, in the
sense that the single-quoted literal opening the fragment does not
read back, by SQL string-literal rules, as the file name. -/
theorem c10_raw_provenance_literal (file prov args_output_file : String)
    (hq : squote ∈ file.data) (hprov : squote ∉ prov.data)
    (hlen : 0 < prov.length) (hne : file ≠ args_output_file) :
    provenanceItems file args_output_file prov = [.fileLit file prov]
    ∧ renderSelectItem (.fileLit file prov)
        = " " ++ sq ++ file ++ sq ++ " as " ++ prov ++ ","
    ∧ ∀ r, parseLitContent ((renderSelectItem (.fileLit file prov)).data.drop 2)
        ≠ some (file.data, r) := by
  refine ⟨provenanceItems_of_enabled_file file args_output_file prov hlen hne, rfl, ?_⟩
  intro r hp
  have hdata : (renderSelectItem (.fileLit file prov)).data
      = ' ' :: squote :: (file.data ++ squote :: (" as " ++ prov ++ ",").data) := by
    show (" " ++ sq ++ file ++ sq ++ " as " ++ prov ++ ",").data = _
    simp only [String.data_append]
    rw [show sq.data = [squote] from rfl]
    simp
  rw [hdata] at hp
  have hdrop : ((' ' :: squote ::
        (file.data ++ squote :: (" as " ++ prov ++ ",").data)).drop 2)
      = file.data ++ squote :: (" as " ++ prov ++ ",").data := rfl
  rw [hdrop] at hp
  have htail : squote ∉ (" as " ++ prov ++ ",").data := by
    rw [String.data_append, String.data_append]
    intro hmem
    rcases List.mem_append.mp hmem with h1 | h2
    · rcases List.mem_append.mp h1 with h3 | h4
      · revert h3
        decide
      · exact hprov h4
    · revert h2
      decide
  exact provenance_literal_misparse file.data _ r hq htail hp

/-- Witness for C10 on a file name holding a single quote. -/
theorem c10_witness :
    parseLitContent ((renderSelectItem
        (.fileLit (String.mk ['a', squote, 'b']) "source_file")).data.drop 2)
      ≠ some ((String.mk ['a', squote, 'b']).data, [] ) :=
  (c10_raw_provenance_literal (String.mk ['a', squote, 'b']) "source_file" "union.hyper"
    (by decide) (by decide) (by decide) (by decide)).2.2 []

end THU
